import Mathlib

/-!
Verification of the web_mail_go mail server core: a shallow embedding of the
LMTP delivery session, the IMAP session command handlers, and the RFC822/MIME
parser and BODYSTRUCTURE builder, with theorems settling the frozen claims.
Go machine integers (int64 UIDs, sizes) are modelled as `Int`; Go byte strings
as Lean `String` (the inputs of interest are ASCII); the Mongo-backed message
store as explicit lists of message records; fallible operations as `Except`.
-/

namespace WebMail


/-- Go `strings.Contains`: `pat` occurs as a contiguous substring of `s`. -/
def strContainsAux : List Char → List Char → Bool
  | _, [] => true
  | [], _ :: _ => false
  | c :: cs, p :: ps =>
    ((List.take (p :: ps).length (c :: cs)) == p :: ps) || strContainsAux cs (p :: ps)

/-- Go `strings.Contains s pat`. -/
def strContains (s pat : String) : Bool :=
  strContainsAux s.toList pat.toList

/-- Go `strings.ToUpper` (ASCII relevant range). -/
def strToUpper (s : String) : String :=
  String.mk (s.toList.map Char.toUpper)

/-- Go `strings.ToLower` (ASCII relevant range). -/
def strToLower (s : String) : String :=
  String.mk (s.toList.map Char.toLower)

/-- Go `strings.HasPrefix`. -/
def strHasPrefix (s pat : String) : Bool :=
  List.take pat.toList.length s.toList == pat.toList

/-- Whitespace class used by Go `strings.TrimSpace` / `strings.Fields`
(ASCII relevant range). -/
def goIsSpace (c : Char) : Bool :=
  c = ' ' || c = '\t' || c = '\n' || c = '\r' || c = '\x0b' || c = '\x0c'

/-- Go `strings.TrimSpace`. -/
def trimSpace (s : String) : String :=
  String.mk ((s.toList.dropWhile goIsSpace).reverse.dropWhile goIsSpace |>.reverse)

/-- Go `strings.Trim s cutset`: drop characters of `cutset` from both ends. -/
def trimCutset (s : String) (cutset : List Char) : String :=
  String.mk ((s.toList.dropWhile (cutset.contains ·)).reverse.dropWhile
    (cutset.contains ·) |>.reverse)

/-- Go `strings.Fields`: split around runs of whitespace, no empty fields. -/
def goFields (s : String) : List String :=
  ((s.toList.splitOnP goIsSpace).map String.mk).filter (· ≠ "")

/-! ## LMTP session (src/unnamed/part_000, package lmtp)

`Session.Data` reads the payload and runs `processMessage` once per accepted
recipient.  A recipient's `processMessage` outcome is modelled as
`Option String`: `none` for success, `some e` for the error `e`.  Per the
source, each failure is recorded as a 450 reply value, and then the whole
transaction is answered with a single result: success when at least one
recipient's delivery succeeded, otherwise a single 450. -/

/-- One SMTP/LMTP reply value as produced by `Session.Data`:
`none` models the Go `nil` error (a single 250-class success reply),
`some (code, text)` models a `*smtp.SMTPError`. -/
def lmtpDataResult (outcomes : List (Option String)) : Option (Nat × String) :=
  let responses := outcomes.map (fun o =>
    o.map (fun e => (450, "Error processing message: " ++ e)))
  if responses.any (fun r => r = none) then
    none
  else
    some (450, "Failed to deliver to all recipients")

/-! ## IMAP data model (src/imap_core/types.go) -/

/-- The `Message` document fields used by the session handlers under
verification.  `id` stands for the Mongo `_id`, `mailbox` for the owning
mailbox's `_id`. -/
structure Message where
  id : Nat
  mailbox : Nat
  uid : Int
  seen : Bool
  answered : Bool
  flagged : Bool
  deleted : Bool
  draft : Bool
  bodyText : String
  bodyHTML : String
  deriving Repr, DecidableEq

/-! ## IMAP helpers (src/unnamed/part_005) -/

/-- Loop body of `parseQuotedArguments`: characters still to read, the
current accumulating argument, the in-quotes flag, the escaped flag. -/
def parseQuotedArgumentsAux : List Char → String → Bool → Bool → List String
  | [], current, _, _ =>
    if current.length > 0 then [current] else []
  | c :: rest, current, inQuotes, escaped =>
    if escaped then
      parseQuotedArgumentsAux rest (current.push c) inQuotes false
    else if c = '\\' then
      if inQuotes then
        parseQuotedArgumentsAux rest current inQuotes true
      else
        parseQuotedArgumentsAux rest (current.push c) inQuotes false
    else if c = '"' then
      parseQuotedArgumentsAux rest current (!inQuotes) false
    else if c = ' ' then
      if !inQuotes then
        if current.length > 0 then
          current :: parseQuotedArgumentsAux rest "" inQuotes false
        else
          parseQuotedArgumentsAux rest current inQuotes false
      else
        parseQuotedArgumentsAux rest (current.push c) inQuotes false
    else
      parseQuotedArgumentsAux rest (current.push c) inQuotes false

/-- `parseQuotedArguments` from the IMAP session helpers. -/
def parseQuotedArguments (args : String) : List String :=
  parseQuotedArgumentsAux args.toList "" false false

/-- A tagged IMAP reply `tag status text` as written by `writeResponse`. -/
structure TaggedReply where
  tag : String
  status : String
  text : String
  deriving Repr, DecidableEq

/-! ## APPEND (src/imap_core/mailbox_commands.go, `Session.handleAppend`)

The mailbox lookup is abstracted as a predicate `mailboxExists` over paths
(the Mongo `FindOne` on `mailboxes`). -/

/-- `Session.handleAppend`: the source parses the arguments, looks the
mailbox up, and then — its literal/message handling being unimplemented —
always answers tagged `NO APPEND not fully implemented`. -/
def handleAppend (authenticated : Bool) (tag args : String)
    (mailboxExists : String → Bool) : TaggedReply :=
  if !authenticated then
    ⟨tag, "NO", "Not authenticated"⟩
  else
    let parts := parseQuotedArguments args
    if parts.length < 2 then
      ⟨tag, "BAD", "APPEND expects mailbox and message"⟩
    else if !(mailboxExists (parts.headD "")) then
      ⟨tag, "NO", "[TRYCREATE] Mailbox does not exist"⟩
    else
      ⟨tag, "NO", "APPEND not fully implemented"⟩

/-! ## FETCH seen-marking (src/imap_core/message_commands.go,
`Session.buildFetchResponse` and `Session.markMessageSeen`)

`buildFetchResponse` receives the item list already upper-cased by
`handleFetch`.  Its only flag mutation is the `markMessageSeen` call issued in
three of its branches; this definition records whether any such call fires,
mirroring the branch structure of the source. -/

/-- True when `buildFetchResponse msg items` invokes `markMessageSeen`
(which sets `seen = true` on the message document). -/
def buildFetchResponseMarksSeen (msg : Message) (items : String) : Bool :=
  ((strContains items "BODY.PEEK[HEADER]" || strContains items "BODY[HEADER]") &&
    (strContains items "BODY[HEADER]" && !msg.seen)) ||
  ((strContains items "BODY.PEEK[TEXT]" || strContains items "BODY[TEXT]") &&
    (strContains items "BODY[TEXT]" && !msg.seen)) ||
  (strContains items "RFC822" && !msg.seen)

/-! ## STORE (src/imap_core/message_commands.go, `Session.handleStore` and
`Session.parseFlags`) -/

/-- The five-key map built by `Session.parseFlags`: every system-flag key is
present, `true` exactly for the flags named in the argument. -/
structure FlagSet where
  seen : Bool
  answered : Bool
  flagged : Bool
  deleted : Bool
  draft : Bool
  deriving Repr, DecidableEq

/-- Fold step of the `parseFlags` switch over one flag token. -/
def parseFlagsStep (acc : FlagSet) (flag : String) : FlagSet :=
  let f := strToUpper flag
  if f = "\\SEEN" then { acc with seen := true }
  else if f = "\\ANSWERED" then { acc with answered := true }
  else if f = "\\FLAGGED" then { acc with flagged := true }
  else if f = "\\DELETED" then { acc with deleted := true }
  else if f = "\\DRAFT" then { acc with draft := true }
  else acc

/-- `Session.parseFlags`: trim parentheses, split into fields, recognise the
five system flags; all five keys start out `false`. -/
def parseFlags (flagsStr : String) : FlagSet :=
  (goFields (trimCutset flagsStr ['(', ')'])).foldl parseFlagsStep
    ⟨false, false, false, false, false⟩

/-- The `$set` document applied by `handleStore` to each selected message,
as a function of the (already upper-cased) action.  `none` models the
`BAD Invalid STORE action` path where no update happens. -/
def storeUpdate (action : String) (flagsStr : String) : Option FlagSet :=
  let flags := parseFlags flagsStr
  if strHasPrefix action "+FLAGS" then
    some flags
  else if strHasPrefix action "-FLAGS" then
    some ⟨false, false, false, false, false⟩
  else if action = "FLAGS" then
    some flags
  else
    none

/-- Effect of `handleStore` on one selected message document: the computed
`$set` document overwrites all five flag columns. -/
def applyStore (actionRaw : String) (flagsStr : String) (msg : Message) : Message :=
  match storeUpdate (strToUpper actionRaw) flagsStr with
  | none => msg
  | some f =>
    { msg with seen := f.seen, answered := f.answered, flagged := f.flagged,
               deleted := f.deleted, draft := f.draft }

/-! ## EXPUNGE (src/imap_core/mailbox_commands.go, `Session.handleExpunge`)

The handler queries the messages of the selected mailbox having
`deleted: true`, sorted by `uid` ascending (Mongo `Find` with
`SetSort {uid: 1}`), records their UIDs, deletes them, and emits one
untagged line per recorded UID.  The store's sort is modelled by insertion
sort on the `uid` column. -/

/-- Insert a message into a uid-ascending list (stable). -/
def insertByUid (m : Message) : List Message → List Message
  | [] => [m]
  | x :: xs => if x.uid ≤ m.uid then x :: insertByUid m xs else m :: x :: xs

/-- Sort a message list by ascending `uid` (the Mongo `SetSort {uid: 1}`). -/
def sortByUid (l : List Message) : List Message :=
  l.foldr insertByUid []

/-- `writeUntaggedResponse`: `fmt.Sprintf("* %s\r\n", text)`. -/
def writeUntagged (text : String) : String :=
  "* " ++ text ++ "\r\n"

/-- Result of `handleExpunge` on the selected mailbox's messages: the
messages left in the store and the untagged lines written. -/
structure ExpungeResult where
  remaining : List Message
  lines : List String
  deriving Repr, DecidableEq

/-- `Session.handleExpunge`, acting on the selected mailbox's messages:
collect the UIDs of the `deleted: true` messages in ascending `uid` order,
remove those messages, and write `* <uid> EXPUNGE` for each recorded UID. -/
def handleExpunge (msgs : List Message) : ExpungeResult :=
  let deletedUIDs := (sortByUid (msgs.filter (·.deleted))).map (·.uid)
  { remaining := msgs.filter (fun m => !m.deleted),
    lines := deletedUIDs.map (fun uid => writeUntagged (toString uid ++ " EXPUNGE")) }

/-- Modelled from the claim's words: `* <seqnum> EXPUNGE` lines in ascending
order of pre-expunge sequence number with renumbering applied after each
line, for a mailbox listed in sequence-number order (`pos` is the next
pre-expunge sequence number, `removed` the number of lines already
emitted). -/
def claimRenumberedExpungeLinesAux : List Message → Nat → Nat → List String
  | [], _, _ => []
  | m :: rest, pos, removed =>
    if m.deleted then
      writeUntagged (toString (pos - removed) ++ " EXPUNGE") ::
        claimRenumberedExpungeLinesAux rest (pos + 1) (removed + 1)
    else
      claimRenumberedExpungeLinesAux rest (pos + 1) removed

/-- Modelled from the claim's words (renumbering reading). -/
def claimRenumberedExpungeLines (msgs : List Message) : List String :=
  claimRenumberedExpungeLinesAux msgs 1 0

/-- Modelled from the claim's words (plain pre-expunge sequence-number
reading): one `* <seqnum> EXPUNGE` line per deleted message with its
pre-expunge sequence number. -/
def claimPreExpungeLinesAux : List Message → Nat → List String
  | [], _ => []
  | m :: rest, pos =>
    if m.deleted then
      writeUntagged (toString pos ++ " EXPUNGE") :: claimPreExpungeLinesAux rest (pos + 1)
    else
      claimPreExpungeLinesAux rest (pos + 1)

/-- Modelled from the claim's words (pre-expunge reading). -/
def claimPreExpungeLines (msgs : List Message) : List String :=
  claimPreExpungeLinesAux msgs 1

/-- Insertion into an ascending `Int` list, spec side. -/
def insertIntAsc (n : Int) : List Int → List Int
  | [] => [n]
  | x :: xs => if x ≤ n then x :: insertIntAsc n xs else n :: x :: xs

/-- Ascending sort of an `Int` list, spec side. -/
def sortIntAsc (l : List Int) : List Int :=
  l.foldr insertIntAsc []

/-! ## MOVE (src/imap_core/message_commands.go, `Session.handleMove`)

The handler resolves the destination mailbox, selects the matching source
messages, and for each one issues an `UpdateOne` on its `_id` setting
`mailbox` to the destination and `uid` to the destination's running
`UIDNext`, which it increments per message (`$inc {uidNext: 1}` on the
mailbox document mirrored by the local `destBox.UIDNext++`).  The UIDs of
the moved messages are collected for the EXPUNGE lines. -/

/-- Go `strconv.Atoi` with the error ignored (the zero value survives). -/
def goAtoi (s : String) : Int :=
  (s.toInt?).getD 0

/-- The message selector built by `handleMove` from the sequence-set
argument: `*` selects the whole selected mailbox, otherwise the single
`uid` parsed by `strconv.Atoi`. -/
def moveSelects (srcId : Nat) (seqSet : String) (m : Message) : Bool :=
  m.mailbox = srcId && (seqSet = "*" || m.uid = goAtoi seqSet)

/-- Result of the `handleMove` loop: the store after the updates, the
destination's `UIDNext` after the increments, and the pre-move UIDs for
which EXPUNGE lines are written. -/
structure MoveResult where
  store : List Message
  destUidNext : Int
  movedUIDs : List Int
  deriving Repr, DecidableEq

/-- The cursor loop of `handleMove`: for each matched message, update the
store document with that `_id` to the destination mailbox and the running
`UIDNext`, then increment it. -/
def moveLoop (destId : Nat) : List Message → List Message → Int → MoveResult
  | [], store, next => ⟨store, next, []⟩
  | msg :: rest, store, next =>
    let store' := store.map (fun m =>
      if m.id = msg.id then { m with mailbox := destId, uid := next } else m)
    let r := moveLoop destId rest store' (next + 1)
    ⟨r.store, r.destUidNext, msg.uid :: r.movedUIDs⟩

/-- `Session.handleMove` on an existing destination mailbox: filter the
matching messages of the selected mailbox and run the update loop. -/
def handleMove (store : List Message) (srcId destId : Nat) (destUidNext : Int)
    (seqSet : String) : MoveResult :=
  moveLoop destId (store.filter (moveSelects srcId seqSet)) store destUidNext

/-! ## CLOSE (src/imap_core/mailbox_commands.go, `Session.handleClose`) -/

/-- The IMAP session state machine states (src/imap_core/types.go). -/
inductive SessState where
  | notAuthenticated
  | authenticated
  | selected
  | logout
  deriving Repr, DecidableEq

/-- Result of `handleClose`: store contents, untagged lines written, the
tagged reply, and the session state and selection afterwards. -/
structure CloseResult where
  store : List Message
  untagged : List String
  reply : TaggedReply
  stateAfter : SessState
  selectedAfter : Option Nat
  deriving Repr, DecidableEq

/-- `Session.handleClose`: outside the selected state reply `BAD`; otherwise
delete the `deleted: true` messages of the selected mailbox (a store failure,
modelled by `deleteFails`, is only logged), clear the selection, return to
the authenticated state, and reply tagged `OK` — with no untagged output on
any path. -/
def handleClose (tag : String) (state : SessState) (selectedBox : Option Nat)
    (store : List Message) (deleteFails : Bool) : CloseResult :=
  if state ≠ SessState.selected then
    ⟨store, [], ⟨tag, "BAD", "No mailbox selected"⟩, state, selectedBox⟩
  else
    let store' :=
      match selectedBox with
      | none => store
      | some mb =>
        if deleteFails then store
        else store.filter (fun m => !(m.mailbox = mb && m.deleted))
    ⟨store', [], ⟨tag, "OK", "CLOSE completed"⟩, SessState.authenticated, none⟩

/-- The message used for the C3 evaluation: unseen, no flags set. -/
def c3msg : Message :=
  ⟨1, 1, 1, false, false, false, false, false, "hello", ""⟩

/-- The message used for the C4 evaluation: `\Flagged` set, nothing else. -/
def c4msg : Message :=
  ⟨1, 1, 1, false, false, true, false, false, "", ""⟩

/-- The two-message mailbox used for the C5 counterexample: UIDs 10 and 11,
both flagged `\Deleted`, listed in mailbox (sequence-number) order. -/
def c5mailbox : List Message :=
  [⟨1, 1, 10, false, false, false, true, false, "", ""⟩,
   ⟨2, 1, 11, false, false, false, true, false, "", ""⟩]

/-! ## Lemmas: characterising the MOVE update loop -/

/-- Position of the first queue entry whose `_id` is `i`. -/
def idxOfId (i : Nat) : List Message → Option Nat
  | [] => none
  | q :: rest => if q.id = i then some 0 else (idxOfId i rest).map (· + 1)

/-- Pointwise effect of the MOVE loop on a store document: matched documents
get the destination mailbox and the `UIDNext` offset by their queue position,
others are untouched. -/
def moveCharFn (destId : Nat) (queue : List Message) (next : Int) (m : Message) :
    Message :=
  match idxOfId m.id queue with
  | some k => { m with mailbox := destId, uid := next + k }
  | none => m

/-- The store used by the C9 witness: message 1 (uid 5) in mailbox 1,
message 2 (uid 3) in mailbox 2. -/
def c9store : List Message :=
  [⟨1, 1, 5, false, false, false, false, false, "", ""⟩,
   ⟨2, 2, 3, false, false, false, false, false, "", ""⟩]

/-! ## MIME parser (src/indexer/parser.go)

Go byte strings are modelled as `String` over their characters.  The
`map[string]interface{}` parsed header is an association list with unique
keys (`phSet` replaces in place); the `interface{}` values are the four
shapes the parser actually stores, collected in `HVal`.  `net/mail`'s
`ParseAddressList` is external to the repository and is abstracted as a
function argument `parseAddrs` (the empty-list fallback on malformed input
is part of the callee). -/

/-- An `{name, address}` record produced from an address header. -/
structure Addr where
  name : String
  address : String
  deriving Repr, DecidableEq

/-- `ValueParams`: a header value with semicolon-separated parameters.  The
Go `Params` map is carried as an association list with unique keys; Go map
iteration order is handled by an enumeration oracle where it matters. -/
structure VParams where
  value : String
  type : String
  subtype : String
  params : List (String × String)
  hasParams : Bool
  deriving Repr, DecidableEq

/-- The shapes stored in the `map[string]interface{}` parsed header. -/
inductive HVal where
  | str (v : String)
  | list (vs : List String)
  | vp (v : VParams)
  | addrs (l : List Addr)
  deriving Repr, DecidableEq

/-- The parsed header: an association list with unique keys. -/
def PH : Type := List (String × HVal)

/-- Map lookup. -/
def phLookup (k : String) : PH → Option HVal
  | [] => none
  | (k', v) :: rest => if k' = k then some v else phLookup k rest

/-- Map update: replace the binding of `k` in place, or append it. -/
def phSet (k : String) (v : HVal) : PH → PH
  | [] => [(k, v)]
  | (k', v') :: rest => if k' = k then (k, v) :: rest else (k', v') :: phSet k v rest

/-- Parameter-map lookup. -/
def paramsLookup (k : String) : List (String × String) → Option String
  | [] => none
  | (k', v) :: rest => if k' = k then some v else paramsLookup k rest

/-- Parameter-map update: replace in place or append. -/
def paramsSet (k v : String) : List (String × String) → List (String × String)
  | [] => [(k, v)]
  | (k', v') :: rest => if k' = k then (k, v) :: rest else (k', v') :: paramsSet k v rest

/-- Join strings with a separator (Go `strings.Join`). -/
def joinWith (sep : String) : List String → String
  | [] => ""
  | [x] => x
  | x :: rest => x ++ sep ++ joinWith sep rest

/-- Split at every occurrence of character `c` (Go `strings.Split` with a
one-character separator). -/
def splitOnChar (c : Char) (s : String) : List String :=
  (s.toList.splitOn c).map String.mk

/-- Go `strings.SplitN(s, c, 2)` for a one-character separator: split at
the first occurrence only. -/
def splitFirst (c : Char) (s : String) : List String :=
  match splitOnChar c s with
  | [] => [s]
  | [x] => [x]
  | x :: rest => [x, joinWith (String.mk [c]) rest]

/-- The key check `regexp.MatchString("^[a-zA-Z0-9\\-\\*]", key)`: the
pattern is unanchored at the end, so it only requires the first character
to be in the class. -/
def validHeaderKey (k : String) : Bool :=
  match k.toList with
  | [] => false
  | c :: _ => c.isAlpha || c.isDigit || c = '-' || c = '*'

/-- `regexp.MustCompile("^\\s").MatchString`: the line begins with a
whitespace character (a folded header continuation). -/
def lineStartsWS (s : String) : Bool :=
  match s.toList with
  | [] => false
  | c :: _ => goIsSpace c

/-- One whitespace-run step of the fold-collapsing regex replacement
`\s*\r?\n\s*` → `" "`: a maximal whitespace run containing a newline is
replaced by a single space, any other run is kept (`pending` is the run
read so far). -/
def cfAux (pending : List Char) : List Char → List Char
  | [] => if pending.contains '\n' then [' '] else pending
  | c :: rest =>
    if goIsSpace c then
      cfAux (pending ++ [c]) rest
    else
      (if pending.contains '\n' then [' '] else pending) ++ c :: cfAux [] rest

/-- `regexp.MustCompile("\\s*\\r?\\n\\s*").ReplaceAllString(value, " ")`. -/
def collapseFolds (s : String) : String :=
  String.mk (cfAux [] s.toList)

/-- Loop body of `parseValueParams` over a non-first `;`-separated part:
split at the first `=`, lower-case and trim the key, strip quotes from the
value, and store it when the key passes the header-key check. -/
def pvpStep (acc : VParams) (part : String) : VParams :=
  let part := trimSpace part
  match splitFirst '=' part with
  | [k0, v0] =>
    let key := strToLower (trimSpace k0)
    let value := trimCutset (trimSpace v0) ['"', '\'']
    if validHeaderKey key ∧ key.length < 100 then
      { acc with params := paramsSet key value acc.params, hasParams := true }
    else acc
  | _ => acc

/-- `parseValueParams`: the first `;`-part is the value, whose `/`-split
yields the lower-cased type and the subtype; the rest are parameters. -/
def parseValueParams (headerValue : String) : VParams :=
  match splitOnChar ';' headerValue with
  | [] => ⟨"", "", "", [], false⟩
  | p0 :: rest =>
    let part := trimSpace p0
    let base : VParams :=
      match splitOnChar '/' part with
      | [] => ⟨part, strToLower part, "", [], false⟩
      | [_] => ⟨part, strToLower part, "", [], false⟩
      | t :: sub => ⟨part, strToLower t, joinWith "/" sub, [], false⟩
    rest.foldl pvpStep base

/-- The value update performed by `processNodeHeader` when a header line
with value `v` meets the existing binding: first value stored bare, second
turns it into a two-element list, further values are prepended (the loop
runs from the last line to the first, so input order is restored).  A
non-string non-list existing value cannot occur during accumulation (Go's
type assertion would panic there). -/
def hvalInsert (v : String) : Option HVal → HVal
  | none => HVal.str v
  | some (HVal.str old) => HVal.list [v, old]
  | some (HVal.list arr) => HVal.list (v :: arr)
  | some _ => HVal.list [v]

/-- The key/value computation of `processNodeHeader` for one (already
unfolded) header line: split at the first `:`, lower-case and trim the
key, apply the key check, trim and fold-collapse the value.  `none` when
the line has no colon or the key is rejected (silently skipped). -/
def lineKV (line : String) : Option (String × String) :=
  match splitFirst ':' line with
  | [k0, v0] =>
    let key := strToLower (trimSpace k0)
    if validHeaderKey key ∧ key.length < 100 then
      some (key, collapseFolds (trimSpace v0))
    else none
  | _ => none

/-- Insert one header line into the parsed-header map, accumulating
repeated keys. -/
def insertHeaderLine (line : String) (ph : PH) : PH :=
  match lineKV line with
  | some (key, value) => phSet key (hvalInsert value (phLookup key ph)) ph
  | none => ph

/-- Header unfolding as performed by the `processNodeHeader` loop, on a
reversed accumulator (most recent line first): a line starting with
whitespace is appended (with a CRLF) to its predecessor; a
whitespace-starting first line stays on its own (the loop's `i > 0`
guard). -/
def unfoldRevStep (accRev : List String) (line : String) : List String :=
  if lineStartsWS line then
    match accRev with
    | [] => [line]
    | last :: above => (last ++ "\r\n" ++ line) :: above
  else line :: accRev

/-- The unfolded header-line list, in input order. -/
def unfoldHeader (hdr : List String) : List String :=
  (hdr.foldl unfoldRevStep []).reverse

/-- The header accumulation pass: the Go loop walks the (unfolded) lines
from the last to the first, inserting each into the map. -/
def insertHeaderLines (lines : List String) (ph : PH) : PH :=
  lines.foldr insertHeaderLine ph

/-- The Go loop of `processNodeHeader` verbatim: from the last line
upwards, merge whitespace-starting lines into their predecessor, insert
the others.  `processHeaderLoop_eq` relates it to the unfold-then-insert
formulation used downstream. -/
def processHeaderLoop (hdr : List String) (ph : PH) : PH :=
  if hh : hdr = [] then ph
  else
    let line := hdr.getLast (by simpa using hh)
    let above := hdr.dropLast
    if hws : lineStartsWS line = true ∧ above ≠ [] then
      processHeaderLoop
        (above.dropLast ++ [above.getLast hws.2 ++ "\r\n" ++ line]) ph
    else
      processHeaderLoop above (insertHeaderLine line ph)
termination_by hdr.length
decreasing_by
  · have h3 : 0 < above.length := List.length_pos.mpr hws.2
    have h4 : 0 < hdr.length := List.length_pos.mpr hh
    have h1 : above.length = hdr.length - 1 := by
      simp [above, List.length_dropLast]
    simp only [List.length_append, List.length_dropLast, List.length_cons,
      List.length_nil]
    omega
  · have h4 : 0 < hdr.length := List.length_pos.mpr hh
    simp only [above, List.length_dropLast]
    omega

/-- The fields whose final value is a single string: the last occurrence
wins. -/
def singleValueFields : List String :=
  ["content-transfer-encoding", "content-id", "content-description",
   "content-language", "content-md5", "content-location"]

/-- The fields decoded into `{name, address}` records. -/
def addressFields : List String :=
  ["from", "sender", "reply-to", "to", "cc", "bcc"]

/-- The accumulated value fed to `parseValueParams`: the last element of a
list, the bare string otherwise (other shapes cannot occur here). -/
def structuredValueOf : HVal → String
  | HVal.list arr => (arr.getLast?).getD ""
  | HVal.str v => v
  | _ => ""

/-- One key of the `content-type`/`content-disposition` structural pass:
take the last accumulated value and parse it into a
value-with-parameters. -/
def structuredStep (ph : PH) (key : String) : PH :=
  match phLookup key ph with
  | none => ph
  | some hv => phSet key (HVal.vp (parseValueParams (structuredValueOf hv))) ph

/-- The structural pass of `processNodeHeader`. -/
def structuredPass (ph : PH) : PH :=
  (["content-type", "content-disposition"]).foldl structuredStep ph

/-- One key of the single-valued pass: collapse an accumulated list to its
last element. -/
def singleValueStep (ph : PH) (key : String) : PH :=
  match phLookup key ph with
  | some (HVal.list arr) => phSet key (HVal.str ((arr.getLast?).getD "")) ph
  | _ => ph

/-- The single-valued-fields pass of `processNodeHeader`. -/
def singleValuePass (ph : PH) : PH :=
  singleValueFields.foldl singleValueStep ph

/-- One key of the address pass: decode the field's value(s) through the
injected `ParseAddressList`; keep the raw value when nothing parses. -/
def addressStep (parseAddrs : String → List Addr) (ph : PH) (key : String) : PH :=
  match phLookup key ph with
  | none => ph
  | some hv =>
    let values :=
      match hv with
      | HVal.list arr => arr
      | HVal.str v => [v]
      | _ => []
    let addresses := values.foldl
      (fun acc v => if v ≠ "" then acc ++ parseAddrs v else acc) []
    if addresses.length > 0 then phSet key (HVal.addrs addresses) ph else ph

/-- The address-fields pass of `processNodeHeader`. -/
def addressPass (parseAddrs : String → List Addr) (ph : PH) : PH :=
  addressFields.foldl (addressStep parseAddrs) ph

/-- `MIMEParser.processNodeHeader`: unfold and accumulate the raw lines,
default `content-type` to `text/plain`, parse the structural fields,
collapse the single-valued fields, decode the address fields. -/
def processNodeHeader (parseAddrs : String → List Addr) (hdr : List String) : PH :=
  let ph := insertHeaderLines (unfoldHeader hdr) []
  let ph :=
    match phLookup "content-type" ph with
    | some _ => ph
    | none => phSet "content-type" (HVal.str "text/plain") ph
  addressPass parseAddrs (singleValuePass (structuredPass ph))

/-! ## The MIME tree and the `MIMEParser.Parse` state machine

Go's back-pointered working tree is modelled as a stack of open frames
(deepest first, the root `tree` node at the bottom); a node is appended to
its parent's child list when it closes, which yields the same finished
tree as Go's append-at-creation through parent pointers.  The recursive
`message/rfc822` sub-parse is bounded by an explicit `fuel` argument; the
Go recursion always terminates on finite inputs since each nested body is
strictly shorter, so any fuel at least the input length computes the Go
value (`parseMIME` passes `input.length + 1`). -/

/-- A finished MIME tree node (`MIMENode` without its internal parsing
fields; `lineCount` and `size` are zero until finalisation). -/
inductive MNode where
  | mk (header : List String) (parsedHeader : PH) (body : String)
      (multipart : String) (boundary : String) (parentBoundary : String)
      (lineCount : Nat) (size : Nat)
      (children : List MNode) (message : Option MNode)

def MNode.header : MNode → List String
  | .mk h _ _ _ _ _ _ _ _ _ => h

def MNode.parsedHeader : MNode → PH
  | .mk _ p _ _ _ _ _ _ _ _ => p

def MNode.body : MNode → String
  | .mk _ _ b _ _ _ _ _ _ _ => b

def MNode.multipart : MNode → String
  | .mk _ _ _ m _ _ _ _ _ _ => m

def MNode.boundary : MNode → String
  | .mk _ _ _ _ b _ _ _ _ _ => b

def MNode.parentBoundary : MNode → String
  | .mk _ _ _ _ _ pb _ _ _ _ => pb

def MNode.lineCount : MNode → Nat
  | .mk _ _ _ _ _ _ lc _ _ _ => lc

def MNode.size : MNode → Nat
  | .mk _ _ _ _ _ _ _ sz _ _ => sz

def MNode.children : MNode → List MNode
  | .mk _ _ _ _ _ _ _ _ c _ => c

def MNode.message : MNode → Option MNode
  | .mk _ _ _ _ _ _ _ _ _ m => m

/-- An open node of the parser's working state (`createNode` fields plus
the children already closed under it). -/
structure Frame where
  header : List String
  parsedHeader : PH
  body : String
  multipart : String
  boundary : String
  parentBoundary : String
  state : String
  children : List MNode
  message : Option MNode

/-- `createNode`: a fresh node in the `header` state whose
`ParentBoundary` is its parent's boundary. -/
def freshFrame (parentBoundary : String) : Frame :=
  ⟨[], [], "", "", "", parentBoundary, "header", [], none⟩

/-- The root `tree` node allocated by `NewMIMEParser`: Go zero values, in
particular the empty `state`. -/
def rootFrame : Frame :=
  ⟨[], [], "", "", "", "", "", [], none⟩

/-- Close a frame into a finished node. -/
def finishFrame (f : Frame) : MNode :=
  .mk f.header f.parsedHeader f.body f.multipart f.boundary f.parentBoundary
    0 0 f.children f.message

/-- The parser's loop state: the open-frame stack and `rawBody`. -/
structure PState where
  stack : List Frame
  rawBody : String

/-- `NewMIMEParser`: the root frame with one fresh child node as the
current node. -/
def initialPState : PState :=
  ⟨[freshFrame "", rootFrame], ""⟩

/-- The `header` state of the per-line switch: accumulate raw lines until
the blank line, then process the header and apply `processContentType`. -/
def stepHeader (parseAddrs : String → List Addr) (cur : Frame)
    (rest : List Frame) (rawBody prevBr line : String) : PState :=
  let rb := if rawBody ≠ "" then rawBody ++ prevBr ++ line else rawBody
  if line = "" then
    let ph := processNodeHeader parseAddrs cur.header
    let mpbd :=
      match phLookup "content-type" ph with
      | some (HVal.vp ct) =>
        if ct.type = "multipart" then
          match paramsLookup "boundary" ct.params with
          | some b => (ct.subtype, b)
          | none => (cur.multipart, cur.boundary)
        else (cur.multipart, cur.boundary)
      | _ => (cur.multipart, cur.boundary)
    ⟨{ cur with parsedHeader := ph, multipart := mpbd.1, boundary := mpbd.2, state := "body" } :: rest, rb⟩
  else
    ⟨{ cur with header := cur.header ++ [line] } :: rest, rb⟩

/-- On closing a node, a `message/rfc822` node with a non-empty body gets
the sub-parse of that body attached. -/
def attachMessage (subparse : String → Option MNode) (cur : Frame) : Frame :=
  match phLookup "content-type" cur.parsedHeader with
  | some (HVal.vp ct) =>
    if ct.value = "message/rfc822" then
      if cur.body.length > 0 then { cur with message := subparse cur.body }
      else cur
    else cur
  | _ => cur

/-- The `body` state of the per-line switch: compare the line against the
parent's boundary and terminator (close a sibling or pop), the node's own
boundary (open a first child), otherwise append to the body.  The
`error` results model Go's nil-pointer dereference on a missing parent
and are unreachable (`stackInv`). -/
def stepBody (subparse : String → Option MNode) (cur : Frame)
    (rest : List Frame) (rawBody prevBr line : String) :
    Except String PState :=
  let rb := rawBody ++ prevBr ++ line
  if cur.parentBoundary ≠ "" ∧
      (line = "--" ++ cur.parentBoundary ∨
       line = "--" ++ cur.parentBoundary ++ "--") then
    let cur := attachMessage subparse cur
    if line = "--" ++ cur.parentBoundary then
      match rest with
      | parent :: rest' =>
        Except.ok ⟨freshFrame parent.boundary ::
          { parent with children := parent.children ++ [finishFrame cur] } ::
            rest', rb⟩
      | [] => Except.error "no parent node"
    else
      match rest with
      | parent :: rest' =>
        Except.ok
          ⟨{ parent with children := parent.children ++ [finishFrame cur] } ::
            rest', rb⟩
      | [] => Except.error "no parent node"
  else if cur.boundary ≠ "" ∧ line = "--" ++ cur.boundary then
    Except.ok ⟨freshFrame cur.boundary :: cur :: rest, rb⟩
  else
    let body' := if cur.body.length > 0 then cur.body ++ prevBr ++ line
      else line
    Except.ok ⟨{ cur with body := body' } :: rest, rb⟩

/-- One iteration of the `Parse` loop: the switch on the current node's
state; a state other than `header`/`body` is the `unexpected state` error
return of the source. -/
def stepLine (parseAddrs : String → List Addr)
    (subparse : String → Option MNode) (st : PState) (prevBr line : String) :
    Except String PState :=
  match st.stack with
  | [] => Except.error "no current node"
  | cur :: rest =>
    if cur.state = "header" then
      Except.ok (stepHeader parseAddrs cur rest st.rawBody prevBr line)
    else if cur.state = "body" then
      stepBody subparse cur rest st.rawBody prevBr line
    else
      Except.error ("unexpected state: " ++ cur.state)

/-- `readLine` applied exhaustively: the list of `(line, break)` pairs the
loop consumes, where the break is `\r\n`, `\n`, or the empty string at the
end of input (`acc` holds the current line reversed). -/
def splitLinesAux : List Char → List Char → List (String × String)
  | [], acc => [(String.mk acc.reverse, "")]
  | '\r' :: '\n' :: rest, acc =>
    (String.mk acc.reverse, "\r\n") :: splitLinesAux rest []
  | '\n' :: rest, acc =>
    (String.mk acc.reverse, "\n") :: splitLinesAux rest []
  | c :: rest, acc => splitLinesAux rest (c :: acc)

/-- The line sequence of an input; empty input yields no iterations. -/
def splitLines (s : String) : List (String × String) :=
  if s = "" then [] else splitLinesAux s.toList []

/-- The `Parse` loop over the line list, threading `prevBr` and stopping
at an empty break; on error the state built so far is kept (Go's tree
remains in place when `Parse` returns an error). -/
def runLines (parseAddrs : String → List Addr)
    (subparse : String → Option MNode) :
    List (String × String) → String → PState → PState × Option String
  | [], _, st => (st, none)
  | (line, br) :: rest, prevBr, st =>
    match stepLine parseAddrs subparse st prevBr line with
    | Except.error e => (st, some e)
    | Except.ok st' =>
      if br = "" then (st', none)
      else runLines parseAddrs subparse rest br st'

/-- Merge the still-open frames bottom-up (Go attaches nodes at creation,
so its tree already contains them). -/
def collapseStackAux (cur : Frame) : List Frame → Frame
  | [] => cur
  | parent :: rest =>
    collapseStackAux
      { parent with children := parent.children ++ [finishFrame cur] } rest

/-- The root's child list after merging the open frames. -/
def collapseStack : List Frame → List MNode
  | [] => []
  | cur :: rest => (collapseStackAux cur rest).children

/-- Run a whole parse (without finalisation): final state and the error,
if any. -/
def parseRun (parseAddrs : String → List Addr)
    (subparse : String → Option MNode) (input : String) :
    PState × Option String :=
  runLines parseAddrs subparse (splitLines input) "" initialPState

/-- The `message/rfc822` sub-parse (`NewMIMEParser` + `Parse` with the
error discarded + `GetResult`), at bounded depth. -/
def subparseFuel (parseAddrs : String → List Addr) :
    Nat → String → Option MNode
  | 0, _ => none
  | fuel + 1, input =>
    (collapseStack (parseRun parseAddrs (subparseFuel parseAddrs fuel)
      input).1.stack).head?

/-- Body line-ending normalisation `\r?\n` → `\r\n` of `finalizeNode`. -/
def normalizeCRLF : List Char → List Char
  | [] => []
  | '\r' :: '\n' :: rest => '\r' :: '\n' :: normalizeCRLF rest
  | '\n' :: rest => '\r' :: '\n' :: normalizeCRLF rest
  | c :: rest => c :: normalizeCRLF rest

/-- `finalizeNode`: on a non-empty body set `lineCount` (newline count
plus one, on the original body), normalise line endings, and set `size`
to the byte length; recurse into the children (not into the embedded
message, which Go leaves unfinalised).  Fuel bounds the tree depth. -/
def finalizeNodeFuel : Nat → MNode → MNode
  | 0, n => n
  | fuel + 1, MNode.mk header ph body mp bd pbd _ _ children msg =>
    let lc := if body.length > 0 then body.toList.count '\n' + 1 else 0
    let body' := if body.length > 0 then String.mk (normalizeCRLF body.toList)
      else body
    let sz := if body.length > 0 then body'.utf8ByteSize else 0
    MNode.mk header ph body' mp bd pbd lc sz
      (children.map (finalizeNodeFuel fuel)) msg

/-- `ParseMIME` at explicit recursion fuel: parse, propagate the error,
otherwise finalise and return the root's first child. -/
def parseMIMEFuel (parseAddrs : String → List Addr) (fuel : Nat)
    (input : String) : Except String (Option MNode) :=
  match parseRun parseAddrs (subparseFuel parseAddrs fuel) input with
  | (_, some e) => Except.error e
  | (st, none) =>
    Except.ok ((collapseStack st.stack).head?.map (finalizeNodeFuel (fuel + 1)))

/-- `ParseMIME`: the fuel `input.length + 1` dominates any reachable
nesting depth. -/
def parseMIME (parseAddrs : String → List Addr) (input : String) :
    Except String (Option MNode) :=
  parseMIMEFuel parseAddrs (input.length + 1) input

/-! ## The parser's state invariant

Every open frame is in the `header` or `body` state (the root `tree`
frame at the bottom, whose Go zero-value state is the empty string, is
never the current node: the frame directly above it carries an empty
`ParentBoundary`, so it never closes). -/

/-- The current node's state is one of the two the switch handles. -/
def frameLive (f : Frame) : Prop :=
  f.state = "header" ∨ f.state = "body"

/-- The well-formedness of the open-frame stack: at least one live frame
above the root, all open frames live, and the lowest live frame (the
root's only open child) has an empty `ParentBoundary`. -/
def stackInv : List Frame → Prop
  | [] => False
  | [_] => False
  | [g, _] => frameLive g ∧ g.parentBoundary = ""
  | f :: rest => frameLive f ∧ stackInv rest

/-! ## Header accumulation: repeated keys -/

/-- The value a header line contributes under key `k`. -/
def lineValue (k : String) (line : String) : Option String :=
  match lineKV line with
  | some (key, value) => if key = k then some value else none
  | none => none

/-- The values contributed to key `k` by a header block, in input order. -/
def headerValuesOf (k : String) (hdr : List String) : List String :=
  (unfoldHeader hdr).filterMap (lineValue k)

/-- Fold of `hvalInsert` over a value list (first element inserted
last). -/
def accumValues : List String → Option HVal → Option HVal
  | [], cur => cur
  | v :: rest, cur => some (hvalInsert v (accumValues rest cur))

/-- How an ordered value list is stored: absent, a bare string, or the
ordered list. -/
def encodeValues : List String → Option HVal
  | [] => none
  | [v] => some (HVal.str v)
  | vs => some (HVal.list vs)

/-- The parsed-address oracle used for concrete evaluations: the
malformed-list fallback of `parseAddresses` (an empty list). -/
def noAddrs : String → List Addr := fun _ => []

/-- The header block of the C8 counterexample: a repeated `Content-Type`
key. -/
def c8ctHdr : List String :=
  ["Content-Type: text/plain", "Content-Type: text/html"]

/-- The header block of the C8 witness: a repeated plain key and a
repeated single-valued key. -/
def c8hdr : List String :=
  ["Received: a", "Received: b", "Subject: s", "Content-ID: <one>",
   "Content-ID: <two>"]

/-! ## BodyStructure builder (src/indexer/parser.go, `BodyStructure`)

The serialisable `interface{}` values are `SV`: nil, string, int, list.
Go ranges over the `Params` maps (`for key, value := range …`); Go map
iteration order is unspecified, so the builder takes an enumeration
oracle `enum` applied to each parameter map before emission — a run of
the Go program corresponds to some `enum` producing a permutation of the
map's entries.  Recursion over the tree is bounded by fuel (the Go
recursion terminates on finite trees; any fuel at least the tree depth
computes the Go value). -/

/-- A serialisable value: Go `nil`, `string`, `int`, `[]interface{}`.
`[]string` values reaching `serializeValue`'s default branch are
pre-rendered with `goSliceFmt`. -/
inductive SV where
  | nil
  | s (v : String)
  | n (v : Nat)
  | lst (items : List SV)

/-- Builder options (`BodyStructureOptions`). -/
structure BSOptions where
  contentLanguageString : Bool
  upperCaseKeys : Bool
  skipContentLocation : Bool
  body : Bool
  attachmentRFC822 : Bool

/-- `strings.ReplaceAll(v, "\"", "\\\"")`. -/
def escapeQuotes (s : String) : String :=
  String.mk (s.toList.foldr
    (fun c acc => if c = '"' then '\\' :: '"' :: acc else c :: acc) [])

/-- `fmt.Sprintf("%v", …)` of a `[]string`. -/
def goSliceFmt (vs : List String) : String :=
  "[" ++ joinWith " " vs ++ "]"

/-- `serializeValue` at bounded depth: `nil` → `NIL`, strings quoted with
escapes, integers bare, lists parenthesised with the empty list also
`NIL`. -/
def serializeSVFuel : Nat → SV → String
  | 0, _ => ""
  | _ + 1, SV.nil => "NIL"
  | _ + 1, SV.s v => "\"" ++ escapeQuotes v ++ "\""
  | _ + 1, SV.n v => toString v
  | fuel + 1, SV.lst items =>
    match items with
    | [] => "NIL"
    | _ => "(" ++ joinWith " " (items.map (serializeSVFuel fuel)) ++ ")"

/-- `getContentType`: the parsed `content-type` value, defaulting to
`text/plain`. -/
def getContentType (n : MNode) : VParams :=
  match phLookup "content-type" n.parsedHeader with
  | some (HVal.vp ct) => ct
  | _ => ⟨"text/plain", "text", "plain", [], false⟩

/-- A raw `ParsedHeader` entry dropped into the structure (`content-id`,
`content-description`, `content-md5`, `content-location`, and the
envelope's scalar slots): absent → nil; a string stays; a string list
would reach `serializeValue`'s default `%v` branch (unreachable for the
single-valued fields). -/
def svRaw (key : String) (ph : PH) : SV :=
  match phLookup key ph with
  | some (HVal.str v) => SV.s v
  | some (HVal.list vs) => SV.s (goSliceFmt vs)
  | some _ => SV.nil
  | none => SV.nil

/-- The flattened alternating key/value parameter list, in the order the
oracle enumerates the map. -/
def paramsSVList (upper : Bool)
    (enum : List (String × String) → List (String × String))
    (ps : List (String × String)) : List SV :=
  (enum ps).foldr
    (fun kv acc =>
      SV.s (if upper then strToUpper kv.1 else kv.1) :: SV.s kv.2 :: acc) []

/-- The parameter slot of a value-with-parameters: a list when parameters
exist, Go's nil interface otherwise. -/
def vpParamsSV (upper : Bool)
    (enum : List (String × String) → List (String × String))
    (vp : VParams) : SV :=
  if vp.hasParams ∧ vp.params.length > 0 then
    SV.lst (paramsSVList upper enum vp.params)
  else SV.nil

/-- `getBasicFields`: type, subtype, parameters, id, description,
encoding, size. -/
def getBasicFields (opts : BSOptions)
    (enum : List (String × String) → List (String × String))
    (node : MNode) : List SV :=
  let ct := getContentType node
  let bodyType0 := if ct.type = "" then "text" else ct.type
  let bodySubtype0 := if ct.subtype = "" then "plain" else ct.subtype
  let cte0 :=
    match phLookup "content-transfer-encoding" node.parsedHeader with
    | some (HVal.str v) => v
    | _ => "7bit"
  let bodyType := if opts.upperCaseKeys then strToUpper bodyType0 else bodyType0
  let bodySubtype :=
    if opts.upperCaseKeys then strToUpper bodySubtype0 else bodySubtype0
  let cte := if opts.upperCaseKeys then strToUpper cte0 else cte0
  [SV.s bodyType, SV.s bodySubtype, vpParamsSV opts.upperCaseKeys enum ct,
   svRaw "content-id" node.parsedHeader,
   svRaw "content-description" node.parsedHeader,
   SV.s cte, SV.n node.size]

/-- `' '` → `','` of the content-language cleanup. -/
def spaceToComma (cs : List Char) : List Char :=
  cs.map (fun c => if c = ' ' then ',' else c)

/-- `strings.ReplaceAll(langStr, ",,", ",")`: one left-to-right
non-overlapping pass. -/
def collapseDoubleComma : List Char → List Char
  | ',' :: ',' :: rest => ',' :: collapseDoubleComma rest
  | c :: rest => c :: collapseDoubleComma rest
  | [] => []

/-- The content-language extension slot. -/
def getLanguageSV (opts : BSOptions) (ph : PH) : SV :=
  match phLookup "content-language" ph with
  | some (HVal.str v) =>
    let langStr :=
      trimCutset (String.mk (collapseDoubleComma (spaceToComma v.toList))) [',']
    if langStr ≠ "" then
      let langList := splitOnChar ',' langStr
      if langList.length = 1 ∧ opts.contentLanguageString then
        SV.s (langList.headD "")
      else
        SV.s (goSliceFmt langList)
    else SV.nil
  | _ => SV.nil

/-- The content-disposition extension slot: `(value params)`. -/
def getDispositionSV (opts : BSOptions)
    (enum : List (String × String) → List (String × String)) (ph : PH) : SV :=
  match phLookup "content-disposition" ph with
  | some (HVal.vp dp) =>
    let dispValue := if opts.upperCaseKeys then strToUpper dp.value else dp.value
    SV.lst [SV.s dispValue, vpParamsSV opts.upperCaseKeys enum dp]
  | _ => SV.nil

/-- `getExtensionFields`: MD5, disposition, language, and (unless
disabled) location. -/
def getExtensionFields (opts : BSOptions)
    (enum : List (String × String) → List (String × String))
    (node : MNode) : List SV :=
  let base := [svRaw "content-md5" node.parsedHeader,
    getDispositionSV opts enum node.parsedHeader,
    getLanguageSV opts node.parsedHeader]
  if !opts.skipContentLocation then
    base ++ [svRaw "content-location" node.parsedHeader]
  else base

/-- One address of `formatAddresses`: `(personal nil mailbox host)`. -/
def fmtAddrSV (a : Addr) : SV :=
  let parts := splitOnChar '@' a.address
  let mailbox := if parts.length = 2 then parts.headD "" else a.address
  let host := if parts.length = 2 then (parts.drop 1).headD "" else ""
  SV.lst [SV.s a.name, SV.nil, SV.s mailbox, SV.s host]

/-- `formatAddresses`: a decoded non-empty address list becomes a list of
4-tuples, anything else is nil. -/
def fmtAddrsSV : Option HVal → SV
  | some (HVal.addrs l) => if l.length > 0 then SV.lst (l.map fmtAddrSV) else SV.nil
  | _ => SV.nil

/-- `createEnvelope`: the fixed 10-tuple (all-nil for a missing embedded
message). -/
def createEnvelopeSV : Option MNode → SV
  | none => SV.lst [SV.nil, SV.nil, SV.nil, SV.nil, SV.nil, SV.nil, SV.nil,
      SV.nil, SV.nil, SV.nil]
  | some node =>
    SV.lst [svRaw "date" node.parsedHeader,
      svRaw "subject" node.parsedHeader,
      fmtAddrsSV (phLookup "from" node.parsedHeader),
      fmtAddrsSV (phLookup "sender" node.parsedHeader),
      fmtAddrsSV (phLookup "reply-to" node.parsedHeader),
      fmtAddrsSV (phLookup "to" node.parsedHeader),
      fmtAddrsSV (phLookup "cc" node.parsedHeader),
      fmtAddrsSV (phLookup "bcc" node.parsedHeader),
      svRaw "in-reply-to" node.parsedHeader,
      svRaw "message-id" node.parsedHeader]

/-- `createBodyStructure` at bounded depth: dispatch on the content type
into the multipart, text, `message/rfc822`, or attachment shape. -/
def createBodyStructureFuel (opts : BSOptions)
    (enum : List (String × String) → List (String × String)) :
    Nat → MNode → SV
  | 0, _ => SV.nil
  | fuel + 1, node =>
    let ct := getContentType node
    if ct.type = "multipart" then
      let childSVs :=
        match node.children with
        | [] => [SV.lst []]
        | cs => cs.map (createBodyStructureFuel opts enum fuel)
      let subtype0 := if node.multipart = "" then "mixed" else node.multipart
      let subtype := if opts.upperCaseKeys then strToUpper subtype0 else subtype0
      SV.lst (childSVs ++ [SV.s subtype, vpParamsSV opts.upperCaseKeys enum ct] ++
        (if !opts.body then (getExtensionFields opts enum node).drop 1 else []))
    else if ct.type = "text" then
      SV.lst (getBasicFields opts enum node ++ [SV.n node.lineCount] ++
        (if !opts.body then getExtensionFields opts enum node else []))
    else if ct.type = "message" ∧ ct.subtype = "rfc822" ∧
        !opts.attachmentRFC822 then
      let embedded :=
        match node.message with
        | some m => createBodyStructureFuel opts enum fuel m
        | none => SV.lst []
      SV.lst (getBasicFields opts enum node ++
        [createEnvelopeSV node.message, embedded, SV.n node.lineCount] ++
        (if !opts.body then getExtensionFields opts enum node else []))
    else
      SV.lst (getBasicFields opts enum node ++
        (if !opts.body then getExtensionFields opts enum node else []))

/-- Every content-type and content-disposition parameter map in the tree
(down to the given depth) carries at most one entry. -/
def smallParamsFuel : Nat → MNode → Bool
  | 0, _ => true
  | fuel + 1, node =>
    (match phLookup "content-type" node.parsedHeader with
     | some (HVal.vp ct) => ct.params.length ≤ 1
     | _ => true) &&
    (match phLookup "content-disposition" node.parsedHeader with
     | some (HVal.vp dp) => dp.params.length ≤ 1
     | _ => true) &&
    node.children.all (smallParamsFuel fuel) &&
    (match node.message with
     | some m => smallParamsFuel fuel m
     | none => true)

/-- The node of the C6 counterexample: a leaf `text/plain` part whose
content-type carries two parameters. -/
def c6node : MNode :=
  MNode.mk [] [("content-type",
    HVal.vp ⟨"text/plain", "text", "plain",
      [("boundary", "b"), ("charset", "utf-8")], true⟩)]
    "hello" "" "" "" 1 5 [] none

/-- The wire-format options (upper-case keywords). -/
def wireOpts : BSOptions :=
  ⟨false, true, false, false, false⟩

/-- The node of the C6 witness: the same leaf with a single parameter. -/
def c6small : MNode :=
  MNode.mk [] [("content-type",
    HVal.vp ⟨"text/plain", "text", "plain", [("charset", "utf-8")], true⟩)]
    "hello" "" "" "" 1 5 [] none

/-! ## Lemmas: mapping UIDs through the uid sort -/

theorem map_uid_insertByUid (m : Message) (l : List Message) :
    (insertByUid m l).map (·.uid) = insertIntAsc m.uid (l.map (·.uid)) := by
  induction l with
  | nil => rfl
  | cons x xs ih =>
    by_cases h : x.uid ≤ m.uid <;> simp [insertByUid, insertIntAsc, h, ih]

theorem map_uid_sortByUid (l : List Message) :
    (sortByUid l).map (·.uid) = sortIntAsc (l.map (·.uid)) := by
  induction l with
  | nil => rfl
  | cons x xs ih =>
    simp only [sortByUid, sortIntAsc, List.foldr_cons, List.map_cons]
    rw [← sortByUid, ← sortIntAsc, map_uid_insertByUid, ih]

/-! ## Claim theorems (session handlers) -/

/-- Claim C1: the LMTP `DATA` handler is required to answer one status line
per accepted recipient, 250 on that recipient's success and 450/550 on its
failure, independently of the other recipients.  The source instead folds
all per-recipient outcomes into ONE transaction-level result: success when
at least one recipient's delivery succeeded, one 450 otherwise.  Evaluated
at two accepted recipients where exactly one delivery fails, the handler
returns the single success value either way, so the failing recipient's
450/550 line is never produced and the reply does not depend on which
recipient failed. -/
theorem lmtpData_collapses_recipient_status :
    lmtpDataResult [none, some "database error"] = none ∧
    lmtpDataResult [some "database error", none] = none ∧
    lmtpDataResult [some "database error", some "database error"] =
      some (450, "Failed to deliver to all recipients") := by
  decide

/-- Claim C2: `APPEND` is claimed to parse the literal, allocate the
destination's `UIDNext` as the new UID, insert the message, and reply
tagged `OK [APPENDUID ...]`.  The source's handler, after finding the
destination mailbox of an authenticated session, unconditionally replies
tagged `NO APPEND not fully implemented`; no message is parsed, no UID is
allocated and no document is inserted. -/
theorem handleAppend_is_stub :
    handleAppend true "A3" "INBOX {310}" (fun _ => true) =
      ⟨"A3", "NO", "APPEND not fully implemented"⟩ := by
  decide

/-- Claim C3: a metadata-only fetch must leave all flags unchanged.  But
`buildFetchResponse` tests `strings.Contains(items, "RFC822")`, which also
matches the metadata item `RFC822.SIZE`, so a `FETCH 1 (UID RFC822.SIZE)`
on an unseen message calls `markMessageSeen` and sets `\Seen`. -/
theorem fetch_rfc822size_marks_seen :
    buildFetchResponseMarksSeen c3msg "UID RFC822.SIZE" = true ∧
    c3msg.seen = false ∧
    buildFetchResponseMarksSeen c3msg "UID FLAGS INTERNALDATE ENVELOPE BODYSTRUCTURE" = false ∧
    buildFetchResponseMarksSeen c3msg "BODY.PEEK[TEXT]" = false := by
  decide

/-- Claim C4: `+FLAGS`/`-FLAGS` must leave the system flags not named in
the command unchanged.  The source's `parseFlags` returns a map holding all
five flag keys (the named ones `true`, the rest `false`) and `handleStore`
applies it as a single `$set`, so `+FLAGS (\Seen)` also overwrites
`\Answered \Flagged \Deleted \Draft` to false; `-FLAGS` `$set`s every key
of that same five-key map to false, clearing ALL five flags whatever was
named.  Evaluated on a message carrying `\Flagged`: `+FLAGS (\Seen)` sets
`\Seen` but clears `\Flagged`; `-FLAGS (\Deleted)` clears `\Seen` too. -/
theorem store_flags_clobbered :
    c4msg.flagged = true ∧
    (applyStore "+FLAGS" "(\\Seen)" c4msg).seen = true ∧
    (applyStore "+FLAGS" "(\\Seen)" c4msg).flagged = false ∧
    (applyStore "-FLAGS" "(\\Deleted)" { c4msg with seen := true }).seen = false := by
  decide

/-- Claim C5 counterexample: on a mailbox whose two messages have UIDs 10
and 11 (sequence numbers 1 and 2) and are both `\Deleted`, the handler
emits `* 10 EXPUNGE` and `* 11 EXPUNGE` — the messages' UIDs — which
matches neither the claim's renumbered sequence numbers (`* 1`, `* 1`) nor
plain pre-expunge sequence numbers (`* 1`, `* 2`). -/
theorem handleExpunge_emits_uids_not_seqnums :
    (handleExpunge c5mailbox).lines = ["* 10 EXPUNGE\r\n", "* 11 EXPUNGE\r\n"] ∧
    (handleExpunge c5mailbox).lines ≠ claimRenumberedExpungeLines c5mailbox ∧
    (handleExpunge c5mailbox).lines ≠ claimPreExpungeLines c5mailbox := by
  decide

/-- Claim C5 (amended): `EXPUNGE` permanently removes exactly the messages
flagged `\Deleted` in the selected mailbox, and emits one untagged line
`* <uid> EXPUNGE` per removed message carrying the message's UID (not its
sequence number), in ascending UID order, with no renumbering. -/
theorem handleExpunge_amended (msgs : List Message) :
    (handleExpunge msgs).remaining = msgs.filter (fun m => !m.deleted) ∧
    (handleExpunge msgs).lines =
      (sortIntAsc ((msgs.filter (·.deleted)).map (·.uid))).map
        (fun uid => writeUntagged (toString uid ++ " EXPUNGE")) := by
  refine ⟨rfl, ?_⟩
  simp only [handleExpunge, ← map_uid_sortByUid]

/-- Claim C10: in the selected state, `CLOSE` deletes the messages flagged
`\Deleted` in the selected mailbox, emits no untagged response, clears the
selection, returns the session to the authenticated state, and replies only
the tagged `OK` — also when the store deletion fails (the failure is only
logged).  The last conjunct characterises the store when the deletion
succeeds: exactly the selected mailbox's `\Deleted` messages are gone. -/
theorem handleClose_spec (tag : String) (mb : Nat) (store : List Message)
    (deleteFails : Bool) :
    (handleClose tag SessState.selected (some mb) store deleteFails).untagged = [] ∧
    (handleClose tag SessState.selected (some mb) store deleteFails).reply =
      ⟨tag, "OK", "CLOSE completed"⟩ ∧
    (handleClose tag SessState.selected (some mb) store deleteFails).stateAfter =
      SessState.authenticated ∧
    (handleClose tag SessState.selected (some mb) store deleteFails).selectedAfter = none ∧
    (∀ m, m ∈ (handleClose tag SessState.selected (some mb) store false).store ↔
      (m ∈ store ∧ ¬(m.mailbox = mb ∧ m.deleted = true))) := by
  refine ⟨by simp [handleClose], by simp [handleClose], by simp [handleClose],
    by simp [handleClose], fun m => ?_⟩
  simp only [handleClose, List.mem_filter]
  simp
  tauto

theorem idxOfId_eq_none_iff (i : Nat) (q : List Message) :
    idxOfId i q = none ↔ i ∉ q.map (·.id) := by
  induction q with
  | nil => simp [idxOfId]
  | cons x rest ih =>
    by_cases h : x.id = i
    · simp [idxOfId, h]
    · simp [idxOfId, h, Option.map_eq_none', ih, Ne.symm h]

theorem idxOfId_get (i : Nat) (q : List Message) (k : Nat)
    (h : idxOfId i q = some k) : ∃ m, q.get? k = some m ∧ m.id = i := by
  induction q generalizing k with
  | nil => simp [idxOfId] at h
  | cons x rest ih =>
    rw [idxOfId] at h
    by_cases hx : x.id = i
    · rw [if_pos hx] at h
      obtain rfl : (0 : Nat) = k := Option.some.inj h
      exact ⟨x, rfl, hx⟩
    · rw [if_neg hx] at h
      cases hr : idxOfId i rest with
      | none => rw [hr] at h; simp at h
      | some j =>
        rw [hr] at h
        simp only [Option.map_some'] at h
        obtain rfl : j + 1 = k := Option.some.inj h
        obtain ⟨m, hm, hmi⟩ := ih j hr
        exact ⟨m, by simpa using hm, hmi⟩

theorem idxOfId_lt (i : Nat) (q : List Message) (k : Nat)
    (h : idxOfId i q = some k) : k < q.length := by
  obtain ⟨m, hm, -⟩ := idxOfId_get i q k h
  exact List.get?_eq_some.mp hm |>.1

theorem idxOfId_inj (i j : Nat) (q : List Message) (k : Nat)
    (hi : idxOfId i q = some k) (hj : idxOfId j q = some k) : i = j := by
  obtain ⟨m, hm, hmi⟩ := idxOfId_get i q k hi
  obtain ⟨m', hm', hmj⟩ := idxOfId_get j q k hj
  rw [hm] at hm'
  rw [← hmi, ← hmj, Option.some.inj hm']

theorem moveCharFn_cons (destId : Nat) (q : Message) (rest : List Message)
    (next : Int) (h : q.id ∉ rest.map (·.id)) (m : Message) :
    moveCharFn destId rest (next + 1)
      (if m.id = q.id then { m with mailbox := destId, uid := next } else m) =
    moveCharFn destId (q :: rest) next m := by
  by_cases hm : m.id = q.id
  · have hnone : idxOfId q.id rest = none := (idxOfId_eq_none_iff _ _).mpr h
    rw [if_pos hm]
    simp [moveCharFn, idxOfId, hm, hnone]
  · rw [if_neg hm]
    have hqm : ¬(q.id = m.id) := fun hq => hm hq.symm
    cases hidx : idxOfId m.id rest with
    | none =>
      simp [moveCharFn, idxOfId, hqm, hidx]
    | some k =>
      simp only [moveCharFn, idxOfId, hqm, if_false, hidx, Option.map_some',
        Message.mk.injEq, true_and, and_true]
      push_cast
      ring

theorem moveCharFn_nil (destId : Nat) (next : Int) (m : Message) :
    moveCharFn destId [] next m = m :=
  rfl

theorem moveLoop_eq (destId : Nat) (queue : List Message) :
    ∀ (store : List Message) (next : Int), (queue.map (·.id)).Nodup →
    moveLoop destId queue store next =
      ⟨store.map (moveCharFn destId queue next), next + queue.length,
        queue.map (·.uid)⟩ := by
  induction queue with
  | nil =>
    intro store next _
    rw [List.map_congr_left (fun m _ => moveCharFn_nil destId next m), List.map_id']
    simp [moveLoop]
  | cons q rest ih =>
    intro store next hnd
    simp only [List.map_cons, List.nodup_cons] at hnd
    obtain ⟨hq, hrest⟩ := hnd
    simp only [moveLoop]
    rw [ih _ _ hrest]
    simp only [MoveResult.mk.injEq, List.map_map]
    refine ⟨?_, ?_, ?_⟩
    · refine List.map_congr_left (fun m _ => ?_)
      exact moveCharFn_cons destId q rest next hq m
    · simp only [List.length_cons]
      push_cast
      ring
    · simp

theorem countP_congr_mem {α : Type} (l : List α) (p q : α → Bool)
    (h : ∀ a ∈ l, p a = q a) : l.countP p = l.countP q := by
  induction l with
  | nil => rfl
  | cons x xs ih =>
    simp only [List.countP_cons, h x (List.mem_cons_self x xs),
      ih (fun a ha => h a (List.mem_cons_of_mem x ha))]

/-- Claim C9: after a `MOVE` of the matching messages of the selected
mailbox `srcId` to an existing distinct destination mailbox `destId` whose
(atomic) `UIDNext` is `destUidNext` and whose resident UIDs respect it, the
joint message count of source and destination is conserved, every moved
message sits in the destination under a UID that collides with no
pre-existing destination UID (and is at least the pre-move `UIDNext`), is
no longer present in the source, and distinct moved messages receive
distinct fresh UIDs. -/
theorem handleMove_conserves (store : List Message) (srcId destId : Nat)
    (destUidNext : Int) (seqSet : String)
    (hid : (store.map (·.id)).Nodup)
    (hne : srcId ≠ destId)
    (hinv : ∀ m ∈ store, m.mailbox = destId → m.uid < destUidNext) :
    ((handleMove store srcId destId destUidNext seqSet).store.filter
        (fun m => m.mailbox = srcId || m.mailbox = destId)).length =
      (store.filter (fun m => m.mailbox = srcId || m.mailbox = destId)).length ∧
    (handleMove store srcId destId destUidNext seqSet).store.length = store.length ∧
    (∀ m' ∈ (handleMove store srcId destId destUidNext seqSet).store,
      m'.id ∈ (store.filter (moveSelects srcId seqSet)).map (·.id) →
        m'.mailbox = destId ∧ m'.mailbox ≠ srcId ∧ destUidNext ≤ m'.uid ∧
        m'.uid ∉ (store.filter (fun m => m.mailbox = destId)).map (·.uid)) ∧
    (∀ m' ∈ (handleMove store srcId destId destUidNext seqSet).store,
      ∀ m'' ∈ (handleMove store srcId destId destUidNext seqSet).store,
        m'.id ∈ (store.filter (moveSelects srcId seqSet)).map (·.id) →
        m''.id ∈ (store.filter (moveSelects srcId seqSet)).map (·.id) →
        m'.id ≠ m''.id → m'.uid ≠ m''.uid) := by
  set queue := store.filter (moveSelects srcId seqSet) with hqdef
  have hqnd : (queue.map (·.id)).Nodup :=
    hid.sublist (List.Sublist.map _ (List.filter_sublist store))
  have hrw : (handleMove store srcId destId destUidNext seqSet).store =
      store.map (moveCharFn destId queue destUidNext) := by
    rw [handleMove, ← hqdef, moveLoop_eq destId queue store destUidNext hqnd]
  have hcharid : ∀ m, (moveCharFn destId queue destUidNext m).id = m.id := by
    intro m
    unfold moveCharFn
    cases idxOfId m.id queue <;> rfl
  have hqsrc : ∀ q ∈ queue, q.mailbox = srcId := by
    intro q hq
    rw [hqdef, List.mem_filter] at hq
    have := hq.2
    simp only [moveSelects, Bool.and_eq_true, decide_eq_true_eq] at this
    exact this.1
  have hqmem : ∀ q ∈ queue, q ∈ store := by
    intro q hq
    rw [hqdef, List.mem_filter] at hq
    exact hq.1
  -- a member of the store whose id is in the queue is itself in the queue
  have hstoreq : ∀ m ∈ store, m.id ∈ queue.map (·.id) → m.mailbox = srcId := by
    intro m hm hmq
    obtain ⟨q, hq, hqid⟩ := List.mem_map.mp hmq
    have : m = q := List.inj_on_of_nodup_map hid hm (hqmem q hq) hqid.symm
    rw [this]
    exact hqsrc q hq
  have hmoved : ∀ m ∈ store, m.id ∈ queue.map (·.id) →
      ∃ k, idxOfId m.id queue = some k ∧
        moveCharFn destId queue destUidNext m =
          { m with mailbox := destId, uid := destUidNext + k } := by
    intro m _ hmq
    cases hidx : idxOfId m.id queue with
    | none => exact absurd ((idxOfId_eq_none_iff _ _).mp hidx) (by simpa using hmq)
    | some k =>
      refine ⟨k, rfl, ?_⟩
      unfold moveCharFn
      rw [hidx]
  have hunmoved : ∀ m, m.id ∉ queue.map (·.id) →
      moveCharFn destId queue destUidNext m = m := by
    intro m hmq
    unfold moveCharFn
    rw [(idxOfId_eq_none_iff _ _).mpr hmq]
  refine ⟨?_, ?_, ?_, ?_⟩
  · -- conservation of the joint count
    rw [hrw]
    rw [← List.countP_eq_length_filter, ← List.countP_eq_length_filter,
      List.countP_map]
    refine countP_congr_mem store _ _ (fun m hm => ?_)
    by_cases hmq : m.id ∈ queue.map (·.id)
    · obtain ⟨k, -, hch⟩ := hmoved m hm hmq
      simp only [Function.comp_apply, hch, hstoreq m hm hmq]
      simp
    · simp only [Function.comp_apply, hunmoved m hmq]
  · rw [hrw, List.length_map]
  · rw [hrw]
    intro m' hm' hm'q
    obtain ⟨m, hm, rfl⟩ := List.mem_map.mp hm'
    rw [hcharid m] at hm'q
    obtain ⟨k, hidx, hch⟩ := hmoved m hm hm'q
    rw [hch]
    refine ⟨rfl, fun hc => hne hc.symm, ?_, ?_⟩
    · simp only
      exact Int.le_add_of_nonneg_right (by positivity)
    · intro hcol
      obtain ⟨w, hw, hwu⟩ := List.mem_map.mp hcol
      rw [List.mem_filter] at hw
      have hwlt : w.uid < destUidNext :=
        hinv w hw.1 (by simpa using hw.2)
      simp only at hwu
      omega
  · rw [hrw]
    intro m' hm' m'' hm'' hq' hq'' hne' hueq
    obtain ⟨m₁, hm₁, rfl⟩ := List.mem_map.mp hm'
    obtain ⟨m₂, hm₂, rfl⟩ := List.mem_map.mp hm''
    rw [hcharid m₁] at hq' hne'
    rw [hcharid m₂] at hq'' hne'
    obtain ⟨k₁, hidx₁, hch₁⟩ := hmoved m₁ hm₁ hq'
    obtain ⟨k₂, hidx₂, hch₂⟩ := hmoved m₂ hm₂ hq''
    rw [hch₁, hch₂] at hueq
    simp only at hueq
    have hk : k₁ = k₂ := by omega
    rw [hk] at hidx₁
    exact hne' (idxOfId_inj m₁.id m₂.id queue k₂ hidx₁ hidx₂)

theorem handleMove_conserves_witness :
    ((c9store.map (·.id)).Nodup) ∧ (1 : Nat) ≠ 2 ∧
      (∀ m ∈ c9store, m.mailbox = 2 → m.uid < 7) ∧
      ((handleMove c9store 1 2 7 "*").store.filter
          (fun m => m.mailbox = 1 || m.mailbox = 2)).length =
        (c9store.filter (fun m => m.mailbox = 1 || m.mailbox = 2)).length :=
  ⟨by decide, by decide, by decide,
    (handleMove_conserves c9store 1 2 7 "*" (by decide) (by decide) (by decide)).1⟩

theorem stackInv_head {f : Frame} {rest : List Frame}
    (h : stackInv (f :: rest)) : frameLive f := by
  match rest with
  | [] => exact absurd h (by simp [stackInv])
  | [_] => exact h.1
  | _ :: _ :: _ => exact h.1

theorem stackInv_replace {f f' : Frame} {rest : List Frame}
    (h : stackInv (f :: rest)) (hlive : frameLive f')
    (hpb : f'.parentBoundary = f.parentBoundary) :
    stackInv (f' :: rest) := by
  match rest with
  | [] => exact absurd h (by simp [stackInv])
  | [_] => exact ⟨hlive, by rw [hpb]; exact h.2⟩
  | _ :: _ :: _ => exact ⟨hlive, h.2⟩

theorem stackInv_push {g : Frame} {st : List Frame}
    (h : stackInv st) (hlive : frameLive g) : stackInv (g :: st) := by
  match st with
  | [] => exact absurd h (by simp [stackInv])
  | [_] => exact absurd h (by simp [stackInv])
  | _ :: _ :: _ => exact ⟨hlive, h⟩

theorem stackInv_pop {cur : Frame} {rest : List Frame}
    (h : stackInv (cur :: rest)) (hpb : cur.parentBoundary ≠ "") :
    ∃ parent rest', rest = parent :: rest' ∧ stackInv (parent :: rest') := by
  match rest with
  | [] => exact absurd h (by simp [stackInv])
  | [r] => exact absurd h.2 hpb
  | a :: b :: t => exact ⟨a, b :: t, rfl, h.2⟩

theorem attachMessage_state (sp : String → Option MNode) (cur : Frame) :
    (attachMessage sp cur).state = cur.state ∧
    (attachMessage sp cur).parentBoundary = cur.parentBoundary := by
  unfold attachMessage
  split
  · split
    · split <;> exact ⟨rfl, rfl⟩
    · exact ⟨rfl, rfl⟩
  · exact ⟨rfl, rfl⟩

theorem stepHeader_shape (pa : String → List Addr) (cur : Frame)
    (rest : List Frame) (rawBody prevBr line : String) :
    ∃ cur' rb, stepHeader pa cur rest rawBody prevBr line = ⟨cur' :: rest, rb⟩ ∧
      cur'.parentBoundary = cur.parentBoundary ∧
      (cur'.state = cur.state ∨ cur'.state = "body") := by
  unfold stepHeader
  by_cases hl : line = ""
  · rw [if_pos hl]
    exact ⟨_, _, rfl, rfl, Or.inr rfl⟩
  · rw [if_neg hl]
    exact ⟨_, _, rfl, rfl, Or.inl rfl⟩

theorem stepBody_ok (sp : String → Option MNode) (cur : Frame)
    (rest : List Frame) (rawBody prevBr line : String)
    (h : stackInv (cur :: rest)) :
    ∃ st', stepBody sp cur rest rawBody prevBr line = Except.ok st' ∧
      stackInv st'.stack := by
  unfold stepBody
  by_cases hcl : cur.parentBoundary ≠ "" ∧
      (line = "--" ++ cur.parentBoundary ∨
       line = "--" ++ cur.parentBoundary ++ "--")
  · rw [if_pos hcl]
    obtain ⟨parent, rest', rfl, hrest⟩ := stackInv_pop h hcl.1
    have hsk := attachMessage_state sp cur
    have hparent : frameLive parent := stackInv_head hrest
    by_cases hsib : line = "--" ++ (attachMessage sp cur).parentBoundary
    · rw [if_pos hsib]
      refine ⟨_, rfl, ?_⟩
      refine stackInv_push (stackInv_replace hrest ?_ rfl) (Or.inl rfl)
      exact hparent
    · rw [if_neg hsib]
      refine ⟨_, rfl, ?_⟩
      refine stackInv_replace hrest ?_ rfl
      exact hparent
  · rw [if_neg hcl]
    by_cases hpush : cur.boundary ≠ "" ∧ line = "--" ++ cur.boundary
    · rw [if_pos hpush]
      exact ⟨_, rfl, stackInv_push h (Or.inl rfl)⟩
    · rw [if_neg hpush]
      refine ⟨_, rfl, ?_⟩
      refine stackInv_replace h ?_ rfl
      rcases stackInv_head h with h1 | h2
      · exact Or.inl h1
      · exact Or.inr h2

theorem stepLine_ok (pa : String → List Addr) (sp : String → Option MNode)
    (st : PState) (prevBr line : String) (h : stackInv st.stack) :
    ∃ st', stepLine pa sp st prevBr line = Except.ok st' ∧
      stackInv st'.stack := by
  obtain ⟨stack, rawBody⟩ := st
  match stack with
  | [] => exact absurd h (by simp [stackInv])
  | cur :: rest =>
    have hred : stepLine pa sp ⟨cur :: rest, rawBody⟩ prevBr line =
        (if cur.state = "header" then
          Except.ok (stepHeader pa cur rest rawBody prevBr line)
        else if cur.state = "body" then
          stepBody sp cur rest rawBody prevBr line
        else Except.error ("unexpected state: " ++ cur.state)) := rfl
    have hlive : frameLive cur := stackInv_head h
    rcases hlive with hh | hb
    · obtain ⟨cur', rb, hsh, hpb, hstate⟩ :=
        stepHeader_shape pa cur rest rawBody prevBr line
      refine ⟨stepHeader pa cur rest rawBody prevBr line, ?_, ?_⟩
      · rw [hred, if_pos hh]
      · rw [hsh]
        refine stackInv_replace h ?_ hpb
        rcases hstate with h1 | h2
        · exact Or.inl (h1.trans hh)
        · exact Or.inr h2
    · obtain ⟨st', hok, hinv⟩ := stepBody_ok sp cur rest rawBody prevBr line h
      refine ⟨st', ?_, hinv⟩
      rw [hred, if_neg (by rw [hb]; decide), if_pos hb]
      exact hok

theorem runLines_ok (pa : String → List Addr) (sp : String → Option MNode) :
    ∀ (lines : List (String × String)) (prevBr : String) (st : PState),
      stackInv st.stack → (runLines pa sp lines prevBr st).2 = none := by
  intro lines
  induction lines with
  | nil => intro prevBr st _; rfl
  | cons lb rest ih =>
    intro prevBr st h
    obtain ⟨line, br⟩ := lb
    obtain ⟨st', hok, hinv⟩ := stepLine_ok pa sp st prevBr line h
    rw [runLines, hok]
    show (if br = "" then (st', none) else runLines pa sp rest br st').2 = none
    by_cases hbr : br = ""
    · rw [if_pos hbr]
    · rw [if_neg hbr]
      exact ih br st' hinv

theorem initial_stackInv : stackInv initialPState.stack :=
  ⟨Or.inl rfl, rfl⟩

theorem parseMIMEFuel_total (pa : String → List Addr) (fuel : Nat)
    (s : String) : ∃ t, parseMIMEFuel pa fuel s = Except.ok t := by
  have h := runLines_ok pa (subparseFuel pa fuel) (splitLines s) ""
    initialPState initial_stackInv
  unfold parseMIMEFuel parseRun
  rcases hr : runLines pa (subparseFuel pa fuel) (splitLines s) "" initialPState
    with ⟨st, err⟩
  rw [hr] at h
  simp only at h
  subst h
  exact ⟨_, rfl⟩

/-- Claim C7: MIME parsing is total.  For every input — unclosed
boundaries and missing terminators included — `ParseMIME` returns a tree
(possibly the root's empty first node) and never an error: every open
node's state is only ever `header` or `body` (`stackInv`), so the
`unexpected state` error branch of the parse loop, and the
missing-parent branches, are unreachable. -/
theorem parseMIME_never_errors (pa : String → List Addr) (s : String) :
    ∃ t, parseMIME pa s = Except.ok t :=
  parseMIMEFuel_total pa (s.length + 1) s

theorem phLookup_phSet_self (k : String) (v : HVal) (ph : PH) :
    phLookup k (phSet k v ph) = some v := by
  induction ph with
  | nil => simp [phSet, phLookup]
  | cons p rest ih =>
    obtain ⟨k', v'⟩ := p
    by_cases h : k' = k <;> simp [phSet, phLookup, h, ih]

theorem phLookup_phSet_ne (k k' : String) (v : HVal) (ph : PH)
    (h : k' ≠ k) : phLookup k (phSet k' v ph) = phLookup k ph := by
  induction ph with
  | nil => simp [phSet, phLookup, h]
  | cons p rest ih =>
    obtain ⟨k'', v''⟩ := p
    unfold phSet
    by_cases h2 : k'' = k'
    · rw [if_pos h2]
      show (if k' = k then some v else phLookup k rest) =
        (if k'' = k then some v'' else phLookup k rest)
      rw [if_neg h, if_neg (fun hc => h (h2 ▸ hc))]
    · rw [if_neg h2]
      show (if k'' = k then some v'' else phLookup k (phSet k' v rest)) =
        (if k'' = k then some v'' else phLookup k rest)
      by_cases h3 : k'' = k
      · rw [if_pos h3, if_pos h3]
      · rw [if_neg h3, if_neg h3, ih]

theorem phLookup_insertHeaderLine (k line : String) (ph : PH) :
    phLookup k (insertHeaderLine line ph) =
      match lineValue k line with
      | some v => some (hvalInsert v (phLookup k ph))
      | none => phLookup k ph := by
  unfold insertHeaderLine lineValue
  cases hkv : lineKV line with
  | none => rfl
  | some kv =>
    obtain ⟨key, value⟩ := kv
    by_cases hk : key = k
    · subst hk
      simp only [phLookup_phSet_self]
      simp
    · simp only [if_neg hk, phLookup_phSet_ne _ _ _ _ hk]

theorem phLookup_insertHeaderLines (k : String) (L : List String) (ph : PH) :
    phLookup k (insertHeaderLines L ph) =
      accumValues (L.filterMap (lineValue k)) (phLookup k ph) := by
  induction L with
  | nil => rfl
  | cons l ls ih =>
    show phLookup k (insertHeaderLine l (insertHeaderLines ls ph)) = _
    rw [phLookup_insertHeaderLine]
    cases hlv : lineValue k l with
    | none => simp only [List.filterMap_cons, hlv, ih]
    | some v => simp only [List.filterMap_cons, hlv, ih, accumValues]

theorem accumValues_none (vs : List String) :
    accumValues vs none = encodeValues vs := by
  induction vs with
  | nil => rfl
  | cons v rest ih =>
    cases rest with
    | nil => rfl
    | cons v2 r2 =>
      rw [accumValues, ih]
      cases r2 with
      | nil => rfl
      | cons v3 r3 => rfl

theorem structuredStep_ne (k key : String) (ph : PH) (h : key ≠ k) :
    phLookup k (structuredStep ph key) = phLookup k ph := by
  unfold structuredStep
  cases hl : phLookup key ph with
  | none => rfl
  | some hv => rw [phLookup_phSet_ne _ _ _ _ h]

theorem singleValueStep_ne (k key : String) (ph : PH) (h : key ≠ k) :
    phLookup k (singleValueStep ph key) = phLookup k ph := by
  unfold singleValueStep
  cases hl : phLookup key ph with
  | none => rfl
  | some hv =>
    cases hv with
    | list arr => rw [phLookup_phSet_ne _ _ _ _ h]
    | str v => rfl
    | vp v => rfl
    | addrs l => rfl

theorem addressStep_ne (pa : String → List Addr) (k key : String) (ph : PH)
    (h : key ≠ k) :
    phLookup k (addressStep pa ph key) = phLookup k ph := by
  unfold addressStep
  cases hl : phLookup key ph with
  | none => rfl
  | some hv =>
    simp only
    split
    · rw [phLookup_phSet_ne _ _ _ _ h]
    · rfl

theorem foldl_singleValueStep_ne (k : String) :
    ∀ (KS : List String), (∀ key ∈ KS, key ≠ k) →
      ∀ ph, phLookup k (KS.foldl singleValueStep ph) = phLookup k ph := by
  intro KS
  induction KS with
  | nil => intro _ ph; rfl
  | cons key rest ih =>
    intro hne ph
    rw [List.foldl_cons, ih (fun x hx => hne x (List.mem_cons_of_mem _ hx)),
      singleValueStep_ne k key ph (hne key (List.mem_cons_self _ _))]

theorem singleValuePass_ne (k : String) (ph : PH)
    (h : k ∉ singleValueFields) :
    phLookup k (singleValuePass ph) = phLookup k ph := by
  exact foldl_singleValueStep_ne k singleValueFields
    (fun key hkey he => h (he ▸ hkey)) ph

theorem structuredPass_ne (k : String) (ph : PH)
    (h1 : k ≠ "content-type") (h2 : k ≠ "content-disposition") :
    phLookup k (structuredPass ph) = phLookup k ph := by
  unfold structuredPass
  rw [List.foldl_cons, List.foldl_cons, List.foldl_nil,
    structuredStep_ne k _ _ (fun he => h2 he.symm),
    structuredStep_ne k _ _ (fun he => h1 he.symm)]

theorem addressPass_ne (pa : String → List Addr) (k : String) (ph : PH)
    (h : k ∉ addressFields) :
    phLookup k (addressPass pa ph) = phLookup k ph := by
  have h6 : ∀ key ∈ addressFields, key ≠ k := by
    intro key hkey he
    exact h (he ▸ hkey)
  have : ∀ (KS : List String), (∀ key ∈ KS, key ≠ k) →
      ∀ ph, phLookup k (KS.foldl (addressStep pa) ph) = phLookup k ph := by
    intro KS
    induction KS with
    | nil => intro _ ph; rfl
    | cons key rest ih =>
      intro hne ph
      rw [List.foldl_cons, ih (fun x hx => hne x (List.mem_cons_of_mem _ hx)),
        addressStep_ne pa k key ph (hne key (List.mem_cons_self _ _))]
  exact this addressFields h6 ph

/-- Effect of the single-valued pass on its own key. -/
theorem singleValueStep_self (k : String) (ph : PH) :
    phLookup k (singleValueStep ph k) =
      match phLookup k ph with
      | some (HVal.list arr) => some (HVal.str ((arr.getLast?).getD ""))
      | other => other := by
  unfold singleValueStep
  cases hl : phLookup k ph with
  | none => rw [hl]
  | some hv =>
    cases hv with
    | list arr => rw [phLookup_phSet_self]
    | str v => rw [hl]
    | vp v => rw [hl]
    | addrs l => rw [hl]

theorem foldl_singleValueStep_mem (k : String) :
    ∀ (KS : List String), KS.Nodup → k ∈ KS →
      ∀ ph, phLookup k (KS.foldl singleValueStep ph) =
        match phLookup k ph with
        | some (HVal.list arr) => some (HVal.str ((arr.getLast?).getD ""))
        | other => other := by
  intro KS
  induction KS with
  | nil =>
    intro _ hk
    exact absurd hk (List.not_mem_nil k)
  | cons key rest ih =>
    intro hnd hk ph
    rw [List.nodup_cons] at hnd
    by_cases hke : k = key
    · subst hke
      rw [List.foldl_cons,
        foldl_singleValueStep_ne k rest (fun x hx he => hnd.1 (he ▸ hx)) _,
        singleValueStep_self]
    · rcases List.mem_cons.mp hk with he | hm
      · exact absurd he hke
      · rw [List.foldl_cons, ih hnd.2 hm (singleValueStep ph key),
          singleValueStep_ne k key ph (fun he => hke he.symm)]

theorem singleValuePass_mem (k : String) (ph : PH)
    (hk : k ∈ singleValueFields) :
    phLookup k (singleValuePass ph) =
      match phLookup k ph with
      | some (HVal.list arr) => some (HVal.str ((arr.getLast?).getD ""))
      | other => other :=
  foldl_singleValueStep_mem k singleValueFields (by decide) hk ph

theorem phLookup_defaultCT (k : String) (ph : PH) (h : k ≠ "content-type") :
    phLookup k
      (match phLookup "content-type" ph with
      | some _ => ph
      | none => phSet "content-type" (HVal.str "text/plain") ph) =
    phLookup k ph := by
  cases phLookup "content-type" ph with
  | none => exact phLookup_phSet_ne _ _ _ _ (fun he => h he.symm)
  | some _ => rfl

/-- Claim C8 (amended): for a key that is none of the structural fields
(`content-type`, `content-disposition`), none of the six single-valued
fields, and none of the address fields, the parsed header maps a repeated
key to the ordered list of its values in input order (one occurrence
stays a bare string, absence stays absent); for the six single-valued
fields, the value of the last occurrence wins. -/
theorem processNodeHeader_repeated_keys (pa : String → List Addr)
    (hdr : List String) (k : String) :
    (k ≠ "content-type" → k ≠ "content-disposition" →
      k ∉ singleValueFields → k ∉ addressFields →
      phLookup k (processNodeHeader pa hdr) =
        encodeValues (headerValuesOf k hdr)) ∧
    (k ∈ singleValueFields → ∀ v, (headerValuesOf k hdr).getLast? = some v →
      phLookup k (processNodeHeader pa hdr) = some (HVal.str v)) := by
  have hacc : phLookup k (insertHeaderLines (unfoldHeader hdr) []) =
      encodeValues (headerValuesOf k hdr) := by
    rw [phLookup_insertHeaderLines]
    show accumValues ((unfoldHeader hdr).filterMap (lineValue k)) none = _
    rw [accumValues_none]
    rfl
  constructor
  · intro h1 h2 h3 h4
    unfold processNodeHeader
    rw [addressPass_ne pa k _ h4, singleValuePass_ne k _ h3,
      structuredPass_ne k _ h1 h2, phLookup_defaultCT k _ h1, hacc]
  · intro hk v hv
    have hprops : ∀ x ∈ singleValueFields,
        x ≠ "content-type" ∧ x ≠ "content-disposition" ∧ x ∉ addressFields := by
      decide
    obtain ⟨h1, h2, h4⟩ := hprops k hk
    unfold processNodeHeader
    rw [addressPass_ne pa k _ h4, singleValuePass_mem k _ hk,
      structuredPass_ne k _ h1 h2, phLookup_defaultCT k _ h1, hacc]
    cases hvals : headerValuesOf k hdr with
    | nil => rw [hvals] at hv; exact absurd hv (by simp)
    | cons v0 rest =>
      cases rest with
      | nil =>
        rw [hvals] at hv
        simp only [List.getLast?_singleton, Option.some.injEq] at hv
        subst hv
        rfl
      | cons v1 r2 =>
        rw [hvals] at hv
        show some (HVal.str (((v0 :: v1 :: r2).getLast?).getD "")) = _
        rw [hv]
        rfl

/-- Claim C8 counterexample: `content-type` is not among the claim's six
single-valued exceptions, yet a header block repeating it does not map
the key to the ordered list of its values — the last occurrence is parsed
into a value-with-parameters record instead. -/
theorem processNodeHeader_ct_not_list :
    phLookup "content-type" (processNodeHeader noAddrs c8ctHdr) =
      some (HVal.vp ⟨"text/html", "text", "html", [], false⟩) ∧
    phLookup "content-type" (processNodeHeader noAddrs c8ctHdr) ≠
      some (HVal.list ["text/plain", "text/html"]) := by
  decide

theorem processNodeHeader_repeated_keys_witness :
    phLookup "received" (processNodeHeader noAddrs c8hdr) =
      some (HVal.list ["a", "b"]) ∧
    phLookup "content-id" (processNodeHeader noAddrs c8hdr) =
      some (HVal.str "<two>") := by
  have h1 := (processNodeHeader_repeated_keys noAddrs c8hdr "received").1
    (by decide) (by decide) (by decide) (by decide)
  have h2 := (processNodeHeader_repeated_keys noAddrs c8hdr "content-id").2
    (by decide) "<two>" (by decide)
  exact ⟨by rw [h1]; decide, h2⟩

/-! ## BodyStructure determinism -/

theorem enum_fix (enum : List (String × String) → List (String × String))
    (h : ∀ l, (enum l).Perm l) (ps : List (String × String))
    (hl : ps.length ≤ 1) : enum ps = ps := by
  match ps, hl with
  | [], _ => exact List.Perm.eq_nil (h [])
  | [p], _ => exact List.perm_singleton.mp (h [p])

theorem vpParamsSV_congr (u : Bool)
    (enum₁ enum₂ : List (String × String) → List (String × String))
    (h₁ : ∀ l, (enum₁ l).Perm l) (h₂ : ∀ l, (enum₂ l).Perm l)
    (vp : VParams) (hl : vp.params.length ≤ 1) :
    vpParamsSV u enum₁ vp = vpParamsSV u enum₂ vp := by
  unfold vpParamsSV paramsSVList
  rw [enum_fix enum₁ h₁ _ hl, enum_fix enum₂ h₂ _ hl]

theorem getContentType_small (node : MNode)
    (hct : match phLookup "content-type" node.parsedHeader with
      | some (HVal.vp ct) => ct.params.length ≤ 1
      | _ => True) :
    (getContentType node).params.length ≤ 1 := by
  unfold getContentType
  cases hl : phLookup "content-type" node.parsedHeader with
  | none => simp
  | some hv =>
    cases hv with
    | vp ct => rw [hl] at hct; exact hct
    | str v => simp
    | list vs => simp
    | addrs l => simp

theorem getBasicFields_congr (opts : BSOptions)
    (enum₁ enum₂ : List (String × String) → List (String × String))
    (h₁ : ∀ l, (enum₁ l).Perm l) (h₂ : ∀ l, (enum₂ l).Perm l)
    (node : MNode) (hct : (getContentType node).params.length ≤ 1) :
    getBasicFields opts enum₁ node = getBasicFields opts enum₂ node := by
  unfold getBasicFields
  dsimp only
  rw [vpParamsSV_congr opts.upperCaseKeys enum₁ enum₂ h₁ h₂ _ hct]

theorem getDispositionSV_congr (opts : BSOptions)
    (enum₁ enum₂ : List (String × String) → List (String × String))
    (h₁ : ∀ l, (enum₁ l).Perm l) (h₂ : ∀ l, (enum₂ l).Perm l)
    (ph : PH)
    (hdp : match phLookup "content-disposition" ph with
      | some (HVal.vp dp) => dp.params.length ≤ 1
      | _ => True) :
    getDispositionSV opts enum₁ ph = getDispositionSV opts enum₂ ph := by
  unfold getDispositionSV
  cases hl : phLookup "content-disposition" ph with
  | none => rfl
  | some hv =>
    cases hv with
    | vp dp =>
      rw [hl] at hdp
      dsimp only
      rw [vpParamsSV_congr opts.upperCaseKeys enum₁ enum₂ h₁ h₂ _
        (by simpa using hdp)]
    | str v => rfl
    | list vs => rfl
    | addrs l => rfl

theorem getExtensionFields_congr (opts : BSOptions)
    (enum₁ enum₂ : List (String × String) → List (String × String))
    (h₁ : ∀ l, (enum₁ l).Perm l) (h₂ : ∀ l, (enum₂ l).Perm l)
    (node : MNode)
    (hdp : match phLookup "content-disposition" node.parsedHeader with
      | some (HVal.vp dp) => dp.params.length ≤ 1
      | _ => True) :
    getExtensionFields opts enum₁ node = getExtensionFields opts enum₂ node := by
  unfold getExtensionFields
  rw [getDispositionSV_congr opts enum₁ enum₂ h₁ h₂ _ hdp]

/-- Claim C6 (amended): the builder is a function of the tree and the
parameter-map enumeration order; whenever every content-type and
content-disposition parameter map in the tree carries at most one entry,
the built structure — and hence its serialised wire form — is identical
for any two permutation-respecting enumerations, i.e. across runs.  With
two or more parameters the emission order follows the Go map iteration
order, which is unspecified, not insertion order
(`createBodyStructure_param_order_dependent`). -/
theorem createBodyStructure_enum_irrelevant (opts : BSOptions)
    (enum₁ enum₂ : List (String × String) → List (String × String))
    (h₁ : ∀ l, (enum₁ l).Perm l) (h₂ : ∀ l, (enum₂ l).Perm l) :
    ∀ (fuel : Nat) (node : MNode), smallParamsFuel fuel node = true →
      createBodyStructureFuel opts enum₁ fuel node =
        createBodyStructureFuel opts enum₂ fuel node := by
  intro fuel
  induction fuel with
  | zero => intro node _; rfl
  | succ fuel ih =>
    intro node hsp
    rw [smallParamsFuel, Bool.and_eq_true, Bool.and_eq_true,
      Bool.and_eq_true] at hsp
    obtain ⟨⟨⟨hct, hdp⟩, hch⟩, hmsg⟩ := hsp
    have hctp : match phLookup "content-type" node.parsedHeader with
        | some (HVal.vp ct) => ct.params.length ≤ 1
        | _ => True := by
      cases hl : phLookup "content-type" node.parsedHeader with
      | none => trivial
      | some hv =>
        cases hv with
        | vp ct => rw [hl] at hct; simpa using hct
        | str v => trivial
        | list vs => trivial
        | addrs l => trivial
    have hdpp : match phLookup "content-disposition" node.parsedHeader with
        | some (HVal.vp dp) => dp.params.length ≤ 1
        | _ => True := by
      cases hl : phLookup "content-disposition" node.parsedHeader with
      | none => trivial
      | some hv =>
        cases hv with
        | vp dp => rw [hl] at hdp; simpa using hdp
        | str v => trivial
        | list vs => trivial
        | addrs l => trivial
    have hctsmall := getContentType_small node hctp
    have hbasic := getBasicFields_congr opts enum₁ enum₂ h₁ h₂ node hctsmall
    have hext := getExtensionFields_congr opts enum₁ enum₂ h₁ h₂ node hdpp
    have hvct := vpParamsSV_congr opts.upperCaseKeys enum₁ enum₂ h₁ h₂
      (getContentType node) hctsmall
    have hchildren : node.children.map (createBodyStructureFuel opts enum₁ fuel) =
        node.children.map (createBodyStructureFuel opts enum₂ fuel) := by
      refine List.map_congr_left (fun c hc => ?_)
      refine ih c ?_
      rw [List.all_eq_true] at hch
      exact hch c hc
    have hmessage :
        (match node.message with
         | some m => createBodyStructureFuel opts enum₁ fuel m
         | none => SV.lst []) =
        (match node.message with
         | some m => createBodyStructureFuel opts enum₂ fuel m
         | none => SV.lst []) := by
      cases hm : node.message with
      | none => rfl
      | some m =>
        rw [hm] at hmsg
        show createBodyStructureFuel opts enum₁ fuel m = _
        exact ih m (by simpa using hmsg)
    rw [createBodyStructureFuel, createBodyStructureFuel]
    dsimp only
    by_cases hc1 : (getContentType node).type = "multipart"
    · rw [if_pos hc1, if_pos hc1]
      cases hcs : node.children with
      | nil => rw [hvct, hext]
      | cons c cs =>
        rw [hcs] at hchildren
        dsimp only
        rw [hchildren, hvct, hext]
    · rw [if_neg hc1, if_neg hc1]
      by_cases hc2 : (getContentType node).type = "text"
      · rw [if_pos hc2, if_pos hc2, hbasic, hext]
      · rw [if_neg hc2, if_neg hc2]
        by_cases hc3 : (getContentType node).type = "message" ∧
            (getContentType node).subtype = "rfc822" ∧
            !opts.attachmentRFC822
        · rw [if_pos hc3, if_pos hc3, hbasic, hext, hmessage]
        · rw [if_neg hc3, if_neg hc3, hbasic, hext]

/-- Claim C6 counterexample: on a part whose content-type map holds two
parameters, two permutation-respecting enumerations of the same map (two
runs of the Go `range`) serialise to different byte strings, so
`build(parse(M))` is not byte-identical across runs and parameter order
is not insertion order. -/
theorem createBodyStructure_param_order_dependent :
    (List.reverse [("boundary", "b"), ("charset", "utf-8")]).Perm
        [("boundary", "b"), ("charset", "utf-8")] ∧
    serializeSVFuel 10 (createBodyStructureFuel wireOpts (fun l => l) 10 c6node) ≠
      serializeSVFuel 10 (createBodyStructureFuel wireOpts List.reverse 10 c6node) := by
  constructor
  · decide
  · decide

theorem createBodyStructure_enum_irrelevant_witness :
    createBodyStructureFuel wireOpts (fun l => l) 3 c6small =
      createBodyStructureFuel wireOpts List.reverse 3 c6small :=
  createBodyStructure_enum_irrelevant wireOpts (fun l => l) List.reverse
    (fun l => List.Perm.refl l) (fun l => List.reverse_perm l) 3 c6small
    (by decide)

/-! ## The Go header loop agrees with unfold-then-insert

The state machine only ever appends non-empty lines to a node's header
(a blank line ends the header state instead of being appended), so the
no-empty-line hypothesis below holds for every header block the parser
processes. -/

theorem unfoldRevStep_ne_nil (acc : List String) (l : String) :
    unfoldRevStep acc l ≠ [] := by
  unfold unfoldRevStep
  by_cases h : lineStartsWS l = true
  · rw [if_pos h]
    cases acc <;> simp
  · rw [if_neg h]
    simp

theorem strAppend_assoc (a b c : String) : a ++ b ++ c = a ++ (b ++ c) :=
  String.ext (by simp)

theorem strAppend_ne_empty_right (a b : String) (h : b ≠ "") :
    a ++ b ≠ "" := by
  intro he
  apply h
  have hd : (a ++ b).data = [] := by rw [he]
  rw [String.data_append] at hd
  exact String.ext (by simpa using (List.append_eq_nil.mp hd).2)

theorem lineStartsWS_append (g x : String) (h : g ≠ "") :
    lineStartsWS (g ++ x) = lineStartsWS g := by
  unfold lineStartsWS
  have hdata : (g ++ x).toList = g.toList ++ x.toList := by
    show (g ++ x).data = g.data ++ x.data
    simp
  cases hg : g.toList with
  | nil =>
    have : g = "" := String.ext (by simpa [String.toList] using hg)
    exact absurd this h
  | cons c rest =>
    rw [hdata, hg]
    rfl

/-- Merging a whitespace-starting line into its non-empty predecessor
before one unfolding step equals two unfolding steps. -/
theorem unfoldRevStep_absorb (R : List String) (g L : String)
    (hg : g ≠ "") (hws : lineStartsWS L = true) :
    unfoldRevStep R (g ++ "\r\n" ++ L) =
      unfoldRevStep (unfoldRevStep R g) L := by
  have hws' : lineStartsWS (g ++ "\r\n" ++ L) = lineStartsWS g := by
    rw [lineStartsWS_append (g ++ "\r\n") L
        (strAppend_ne_empty_right g "\r\n" (by decide)),
      lineStartsWS_append g "\r\n" hg]
  simp only [unfoldRevStep]
  by_cases hwg : lineStartsWS g = true
  · rw [if_pos (show lineStartsWS (g ++ "\r\n" ++ L) = true by
        rw [hws']; exact hwg),
      if_pos hwg, if_pos hws]
    cases R with
    | nil => rfl
    | cons r rrest =>
      simp only [List.cons.injEq, and_true]
      simp [strAppend_assoc]
  · rw [if_neg (show ¬lineStartsWS (g ++ "\r\n" ++ L) = true by
        rw [hws']; exact hwg),
      if_neg hwg, if_pos hws]

theorem insertHeaderLines_concat (X : List String) (L : String) (ph : PH) :
    insertHeaderLines (X ++ [L]) ph =
      insertHeaderLines X (insertHeaderLine L ph) := by
  unfold insertHeaderLines
  rw [List.foldr_append]
  rfl

/-- `processHeaderLoop` computes unfold-then-insert, on header blocks
without empty lines. -/
theorem processHeaderLoop_eq (n : Nat) :
    ∀ (hdr : List String) (ph : PH), hdr.length ≤ n → "" ∉ hdr →
      processHeaderLoop hdr ph = insertHeaderLines (unfoldHeader hdr) ph := by
  induction n with
  | zero =>
    intro hdr ph hlen _
    have : hdr = [] := List.eq_nil_of_length_eq_zero (Nat.le_zero.mp hlen)
    subst this
    rw [processHeaderLoop]
    rfl
  | succ n ih =>
    intro hdr ph hlen hmem
    by_cases hh : hdr = []
    · subst hh
      rw [processHeaderLoop]
      rfl
    · have hgL : hdr.dropLast ++ [hdr.getLast hh] = hdr :=
        List.dropLast_append_getLast hh
      have hfold : hdr.foldl unfoldRevStep [] =
          unfoldRevStep (hdr.dropLast.foldl unfoldRevStep [])
            (hdr.getLast hh) := by
        conv_lhs => rw [← hgL]
        rw [List.foldl_append, List.foldl_cons, List.foldl_nil]
      rw [processHeaderLoop, dif_neg hh]
      by_cases hws : lineStartsWS (hdr.getLast (by simpa using hh)) = true ∧
          hdr.dropLast ≠ []
      · rw [dif_pos hws]
        have hpos : 0 < hdr.length := List.length_pos.mpr hh
        have hpos2 : 0 < hdr.dropLast.length := List.length_pos.mpr hws.2
        have hgmem : hdr.dropLast.getLast hws.2 ∈ hdr :=
          List.dropLast_subset hdr (List.getLast_mem hws.2)
        have hgne : hdr.dropLast.getLast hws.2 ≠ "" :=
          fun he => hmem (he ▸ hgmem)
        have hLmem : hdr.getLast hh ∈ hdr := List.getLast_mem hh
        have hLne : hdr.getLast hh ≠ "" := fun he => hmem (he ▸ hLmem)
        have hlen' : (hdr.dropLast.dropLast ++
            [hdr.dropLast.getLast hws.2 ++ "\r\n" ++
              hdr.getLast (by simpa using hh)]).length ≤ n := by
          have e1 : hdr.dropLast.length = hdr.length - 1 :=
            List.length_dropLast hdr
          have e2 : hdr.dropLast.dropLast.length = hdr.dropLast.length - 1 :=
            List.length_dropLast _
          simp only [List.length_append, List.length_cons, List.length_nil]
          omega
        have hmem' : "" ∉ hdr.dropLast.dropLast ++
            [hdr.dropLast.getLast hws.2 ++ "\r\n" ++
              hdr.getLast (by simpa using hh)] := by
          intro hc
          rcases List.mem_append.mp hc with hc | hc
          · exact hmem (List.dropLast_subset hdr
              (List.dropLast_subset hdr.dropLast hc))
          · exact strAppend_ne_empty_right _ _ hLne
              (List.mem_singleton.mp hc).symm
        rw [ih _ ph hlen' hmem']
        suffices hsame :
            (hdr.dropLast.dropLast ++
              [hdr.dropLast.getLast hws.2 ++ "\r\n" ++
                hdr.getLast (by simpa using hh)]).foldl unfoldRevStep [] =
              hdr.foldl unfoldRevStep [] by
          unfold unfoldHeader
          rw [hsame]
        rw [List.foldl_append, List.foldl_cons, List.foldl_nil, hfold]
        have hA : hdr.dropLast.dropLast ++ [hdr.dropLast.getLast hws.2] =
            hdr.dropLast := List.dropLast_append_getLast hws.2
        have hfoldA : hdr.dropLast.foldl unfoldRevStep [] =
            unfoldRevStep (hdr.dropLast.dropLast.foldl unfoldRevStep [])
              (hdr.dropLast.getLast hws.2) := by
          conv_lhs => rw [← hA]
          rw [List.foldl_append, List.foldl_cons, List.foldl_nil]
        rw [hfoldA]
        exact unfoldRevStep_absorb _ _ _ hgne hws.1
      · rw [dif_neg hws]
        have hlenA : hdr.dropLast.length ≤ n := by
          have : hdr.dropLast.length = hdr.length - 1 := List.length_dropLast hdr
          have hpos : 0 < hdr.length := List.length_pos.mpr hh
          omega
        have hmemA : "" ∉ hdr.dropLast :=
          fun hc => hmem (List.dropLast_subset hdr hc)
        rw [ih _ _ hlenA hmemA]
        unfold unfoldHeader
        rw [hfold]
        by_cases hwl : lineStartsWS (hdr.getLast hh) = true
        · have hA : hdr.dropLast = [] := by
            by_contra hA
            exact hws ⟨hwl, hA⟩
          rw [hA]
          simp only [List.foldl_nil]
          unfold unfoldRevStep
          rw [if_pos hwl]
          rfl
        · unfold unfoldRevStep
          rw [if_neg hwl, List.reverse_cons, insertHeaderLines_concat]

end WebMail
